import Mathlib

/-!
Verification of the `backupy` path-tree model (src/backupy.py).

Shallow embedding conventions:
* A filesystem is an `Entry` tree (`file` with a byte size, `dir` with children).
* Node paths are lists of name segments relative to the scanned root
  (the root itself is `[]`); `bp.parent` chains in the source correspond to
  `List.dropLast` on the relative path, ending at `[]`.
* `BackupPath.__init__`'s in-place mutation of every ancestor is embedded as a
  fold (`buildFold`) over the pre-order creation sequence (`enumEntry`, the
  order in which `BackupPath.make_tree` yields nodes); each step (`createNode`)
  appends the new node's record and bumps `size`, `n_files` and `backup` on
  every strict ancestor already in the state, exactly as the `while` loop in
  `BackupPath.__init__` does.
* Machine sizes are `Nat` (byte counts); the CLI thresholds `show`, `filemax`
  and `--dp` are `Int`, since the source uses `-1` sentinels.
* The configuration file is modelled as its parsed row list
  `List (RPath × Bool)` (canonical relative path and backup flag — the only
  columns `_read_backup_conf` consumes); csv quoting/escaping is below this
  abstraction.  A missing file is `Option.none`, and Python exceptions are
  `Except.error`.
-/

namespace Backupy

set_option maxRecDepth 100000

/-- A path relative to the scanned root, as a list of name segments. -/
abbrev RPath := List String

/-- The mutable per-node record of `BackupPath`: the fields assigned in
`BackupPath.__init__` (`size`, `n_files`, `backup`, `depth`, `is_last`) plus
whether the underlying entry is a file (`path.is_file()`). -/
structure NodeData where
  size : Nat
  n_files : Nat
  backup : Bool
  depth : Nat
  is_last : Bool
  isFile : Bool
deriving DecidableEq, Repr, Inhabited

/-- A filesystem entry: a file with its byte size, or a directory with its
children (directories have own size 0, as in `BackupPath.__init__`). -/
inductive Entry where
  | file (name : String) (size : Nat)
  | dir (name : String) (children : List Entry)

def Entry.name : Entry → String
  | .file n _ => n
  | .dir n _ => n

def Entry.isFile : Entry → Bool
  | .file _ _ => true
  | .dir _ _ => false

/-- Own byte size: `0 if self.path.is_dir() else os.path.getsize(self.path)`. -/
def Entry.ownSize : Entry → Nat
  | .file _ sz => sz
  | .dir _ _ => 0

mutual
/-- Sum of the byte sizes of all files in the subtree (directories have no
own size). -/
def Entry.totalFileSize : Entry → Nat
  | .file _ sz => sz
  | .dir _ cs => Entry.totalFileSizeList cs

def Entry.totalFileSizeList : List Entry → Nat
  | [] => 0
  | c :: cs => c.totalFileSize + Entry.totalFileSizeList cs
end

mutual
/-- Number of files in the subtree. -/
def Entry.countFiles : Entry → Nat
  | .file _ _ => 1
  | .dir _ cs => Entry.countFilesList cs

def Entry.countFilesList : List Entry → Nat
  | [] => 0
  | c :: cs => c.countFiles + Entry.countFilesList cs
end

mutual
/-- Well-formed filesystem: sibling names are pairwise distinct, as on a real
filesystem (the trees `BackupPath.make_tree` can actually scan). -/
def Entry.WF : Entry → Bool
  | .file _ _ => true
  | .dir _ cs => namesOk (cs.map Entry.name) && Entry.WFList cs

def Entry.WFList : List Entry → Bool
  | [] => true
  | c :: cs => c.WF && Entry.WFList cs

/-- No duplicates in a list of names. -/
def namesOk : List String → Bool
  | [] => true
  | x :: xs => !(xs.contains x) && namesOk xs
end

/-! ### Sorting of directory listings

`BackupPath.make_tree` sorts a directory's children with
`sort_key = (s.is_file() if dir_first else s.is_dir(), str(s).lower())`.
For siblings, comparing the lowercased full path strings is comparing the
lowercased names (the shared parent-path prefix is identical), so the key of a
child is `(is_file / is_dir, name.lower())`.  Python's `sorted` decorates each
element with its key once and is stable; `sortBy` below is a stable insertion
sort over the decorated list. -/

/-- Code-point lexicographic `≤` on strings, as Python compares `str`. -/
def strLeChars : List Char → List Char → Bool
  | [], _ => true
  | _ :: _, [] => false
  | c :: cs, d :: ds =>
      if c.val < d.val then true
      else if d.val < c.val then false
      else strLeChars cs ds

/-- Lexicographic `≤` on Python's `(bool, str)` sort keys (`False < True`). -/
def keyLe (a b : Bool × String) : Bool :=
  if a.1 = b.1 then strLeChars a.2.data b.2.data else !a.1

/-- Insert into a sorted list, keeping earlier elements first on ties
(stability of Python's sort). -/
def insertBy {α : Type} (le : α → α → Bool) (x : α) : List α → List α
  | [] => [x]
  | y :: ys => if le x y then x :: y :: ys else y :: insertBy le x ys

/-- Stable insertion sort. -/
def sortBy {α : Type} (le : α → α → Bool) : List α → List α
  | [] => []
  | x :: xs => insertBy le x (sortBy le xs)

/-- `str.lower()` character by character (the same characters
`String.toLower` produces). -/
def strLower (s : String) : String :=
  String.mk (s.data.map Char.toLower)

/-- The sort key of `BackupPath.make_tree`. -/
def childKey (dir_first : Bool) (c : Entry) : Bool × String :=
  (if dir_first then c.isFile else !c.isFile, strLower c.name)

/-- `sorted(root.iterdir(), key=sort_key)`. -/
def sortChildren (dir_first : Bool) (cs : List Entry) : List Entry :=
  (sortBy (fun a b => keyLe a.1 b.1)
      (cs.map (fun c => (childKey dir_first c, c)))).map (·.2)

/-- Pair each child with its `is_last` flag (`count == len(children)` in
`BackupPath.make_tree`). -/
def markLast : List Entry → List (Entry × Bool)
  | [] => []
  | [c] => [(c, true)]
  | c :: c' :: cs => (c, false) :: markLast (c' :: cs)

/-! ### Pre-order enumeration of the tree

`BackupPath.make_tree` yields the root first, then for each sorted child
either its node (file) or its whole subtree (directory).  `enumEntry` records,
for each yielded node, everything `BackupPath.__init__` is given: the node's
relative path, its own size, whether it is a file, and its `is_last` flag. -/

/-- One node-creation event, i.e. one `BackupPath.__init__` call. -/
structure Event where
  path : RPath
  ownSize : Nat
  isFile : Bool
  is_last : Bool
deriving DecidableEq, Repr

mutual
/-- Height of the tree (strictly bounds the recursion depth of
`BackupPath.make_tree`). -/
def Entry.height : Entry → Nat
  | .file _ _ => 1
  | .dir _ cs => 1 + Entry.heightList cs

def Entry.heightList : List Entry → Nat
  | [] => 0
  | c :: cs => max c.height (Entry.heightList cs)
end

/-- The recursion of `BackupPath.make_tree`, written with an explicit
recursion-depth bound so that it is structurally recursive (the bound is
always sufficient below; `enumEntry` instantiates it with the tree height). -/
def enumFuel (dir_first : Bool) : Nat → RPath → Bool → Entry → List Event
  | 0, _, _, _ => []
  | _ + 1, rp, il, .file _ sz => [⟨rp, sz, true, il⟩]
  | k + 1, rp, il, .dir _ cs =>
      ⟨rp, 0, false, il⟩ ::
        (markLast (sortChildren dir_first cs)).flatMap
          (fun cb => enumFuel dir_first k (rp ++ [cb.1.name]) cb.2 cb.1)

/-- The sequence of node creations of `BackupPath.make_tree`, in yield order;
`rp` is the node's own path relative to the scanned root. -/
def enumEntry (dir_first : Bool) (rp : RPath) (il : Bool) (t : Entry) :
    List Event :=
  enumFuel dir_first t.height rp il t

/-! ### Filters -/

/-- Relative path of the parent node: `bp.parent.path` (only meaningful for
`p ≠ []`; the root node has `parent = None`). -/
def parentPath (p : RPath) : RPath := p.dropLast

/-- The recursion of the filter returned by `BackupPath.make_namefilter`,
with an explicit bound on the number of parent steps so that it is structural
(one step removes the last path component, so `p.length` steps always
suffice; `make_namefilter` instantiates the bound with exactly that).  At
bound 0 the path is `[]`, whose parent is `None`, so the remaining checks are
the explicit sets and then the default include. -/
def namefilterWalk (incl excl : List RPath) : Nat → RPath → Bool
  | 0, p =>
      if p ∈ incl then true
      else if p ∈ excl then false
      else true
  | k + 1, p =>
      if p ∈ incl then true
      else if p ∈ excl then false
      else if p = [] then true
      else namefilterWalk incl excl k (parentPath p)

/-- `BackupPath.make_namefilter(include, exclude)`: include if the path is
explicitly included, else exclude if explicitly excluded, else defer to the
parent, else (root without a rule) include. -/
def make_namefilter (incl excl : List RPath) (p : RPath) : Bool :=
  namefilterWalk incl excl p.length p

/-- The size filter of `BackupPath.make_tree`: with a positive `filemax` it is
`lambda s: s.size < filemax` applied to the node's size at construction time
(0 for a directory); otherwise always true. -/
def sizefilter (filemax : Int) (size : Nat) : Bool :=
  if filemax > 0 then decide ((size : Int) < filemax) else true

/-- The node's own decision computed in `BackupPath.__init__`:
`namefilter(self) and sizefilter(self)`. -/
def eventDecision (incl excl : List RPath) (filemax : Int) (e : Event) : Bool :=
  make_namefilter incl excl e.path && sizefilter filemax e.ownSize

/-! ### Construction state

The tree under construction is the list of already-created nodes in creation
order (this list is also `BackupPathStructure.backuppaths`).  `createNode`
embeds one `BackupPath.__init__` call: initialize the node's fields, then walk
every strict ancestor, adding the node's own size, its own file count and
OR-ing in its decision. -/
abbrev BState := List (RPath × NodeData)

/-- First-match association lookup (paths are unique under `Entry.WF`). -/
def lookupSt (st : BState) (p : RPath) : Option NodeData :=
  (st.find? (fun x => decide (x.1 = p))).map (·.2)

/-- `q` is a strict ancestor path of `p`. -/
def isAnc (q p : RPath) : Bool := q.isPrefixOf p && decide (q.length < p.length)

/-- The fields `BackupPath.__init__` gives the new node before the ancestor
walk: own size, own file count, `namefilter(self) and sizefilter(self)`, and
`parent.depth + 1` looked up in the current state (`0` for the root). -/
def initData (incl excl : List RPath) (filemax : Int) (st : BState)
    (e : Event) : NodeData :=
  { size := e.ownSize
    n_files := if e.isFile then 1 else 0
    backup := eventDecision incl excl filemax e
    depth :=
      if e.path = [] then 0
      else ((lookupSt st (parentPath e.path)).map (·.depth + 1)).getD 0
    is_last := e.is_last
    isFile := e.isFile }

/-- One iteration of the `while prnt is not None` loop, applied to the record
at path `p`: ancestors of the new node receive its own size, its own file
count and its decision (OR); everything else is untouched. -/
def bumpOne (incl excl : List RPath) (filemax : Int) (e : Event) (p : RPath)
    (d : NodeData) : NodeData :=
  if isAnc p e.path then
    { d with
        size := d.size + e.ownSize,
        n_files := d.n_files + (if e.isFile then 1 else 0),
        backup := d.backup || eventDecision incl excl filemax e }
  else d

/-- One `BackupPath.__init__` call: create the node, then bump `size`,
`n_files` and `backup` on every ancestor. -/
def createNode (incl excl : List RPath) (filemax : Int) (st : BState)
    (e : Event) : BState :=
  (st.map (fun x => (x.1, bumpOne incl excl filemax e x.1 x.2)))
    ++ [(e.path, initData incl excl filemax st e)]

/-- Folding the whole creation sequence, i.e. exhausting the
`BackupPath.make_tree` generator. -/
def buildFold (incl excl : List RPath) (filemax : Int) (st : BState)
    (evs : List Event) : BState :=
  evs.foldl (createNode incl excl filemax) st

/-- The finished node list for a scanned root: all of
`BackupPath.make_tree(root, include=incl, exclude=excl, filemax=filemax,
dir_first=dir_first)`, with every ancestor update applied. -/
def buildNodes (fs : Entry) (incl excl : List RPath) (filemax : Int)
    (dir_first : Bool) : BState :=
  buildFold incl excl filemax [] (enumEntry dir_first [] false fs)

/-! ### `BackupPathStructure` -/

/-- `BackupPathStructure.max_display`. -/
def max_display : Nat := 1000

/-- The state of a `BackupPathStructure` after `__init__`: the node list in
creation order (`backuppaths`), the constructor arguments, and the descending
size distribution of the file nodes (`sizedist`, from which `size_total` is
summed).  The purely cosmetic fields (`size_highlight`, `max_depth_is`) play
no part in any claim and are not modelled; note that `np.quantile` on the
sizes is the one place the constructor would fail on a tree with no files. -/
structure BPS where
  nodes : BState
  incl : List RPath
  excl : List RPath
  show_ : Int
  filemax : Int
  max_depth_display : Int
  sizedist : List Nat
  size_total : Nat
deriving DecidableEq, Repr

/-- `BackupPathStructure.__init__(root, include, exclude, show, filemax,
max_depth, dir_first)`.  `sizedist` collects `bp.size` of each file node as it
is yielded — at that moment a file's `size` is its own byte size — and sorts
it descending (`reverse=True`). -/
def mkBPS (fs : Entry) (incl excl : List RPath) (show_ filemax mdd : Int)
    (dir_first : Bool) : BPS :=
  let evs := enumEntry dir_first [] false fs
  { nodes := buildFold incl excl filemax [] evs
    incl := incl
    excl := excl
    show_ := show_
    filemax := filemax
    max_depth_display := mdd
    sizedist := sortBy (fun a b : Nat => decide (b ≤ a))
        ((evs.filter (·.isFile)).map (·.ownSize))
    size_total := ((evs.filter (·.isFile)).map (·.ownSize)).sum }

/-! ### `BackupPathStructure.scan` -/

/-- `bp.path in self.include + self.exclude`. -/
def explicitIn (s : BPS) (p : RPath) : Bool := decide (p ∈ s.incl ++ s.excl)

/-- The `continue` condition in `BackupPathStructure.scan`: a non-explicit
node is skipped when it is deeper than the display depth, or — only when
`display` is set — when there are more than `max_display` file sizes and the
node's size is at most the `max_display`-th (0-based) of them. -/
def scanSkip (s : BPS) (display : Bool) (d : NodeData) : Bool :=
  (decide ((d.depth : Int) > s.max_depth_display)
      && decide (s.max_depth_display > -1))
    || (display && decide (s.sizedist.length > max_display)
        && decide (d.size ≤ s.sizedist.getD max_display 0))

/-- Whether `scan` emits a row for the node: not skipped, and
`bp.path == self.root or bp.size > self.show or explicit`. -/
def scanKeep (s : BPS) (display : Bool) (p : RPath) (d : NodeData) : Bool :=
  (explicitIn s p || !scanSkip s display d)
    && (decide (p = []) || decide ((d.size : Int) > s.show_) || explicitIn s p)

/-- The `(path, backup-flag)` projection of the rows `scan` yields, in node
order; these two columns are all `make_backup_conf` writes that
`_read_backup_conf` later consumes. -/
def scanRows (s : BPS) (display : Bool) : List (RPath × Bool) :=
  s.nodes.filterMap
    (fun x => if scanKeep s display x.1 x.2 then some (x.1, x.2.backup) else none)

/-- `BackupPathStructure.make_backup_conf` writes exactly the rows of
`self.scan(display=False, ansi_highlight=False)`. -/
def make_backup_conf (s : BPS) : List (RPath × Bool) :=
  scanRows s false

/-- The scan loop as an explicit state pass: each iteration reads the node,
optionally appends an output row, and hands the node on.  Its first component
is the node list as it stands after the loop. -/
def scanVisit (s : BPS) (display : Bool)
    (acc : BState × List (RPath × Bool)) (x : RPath × NodeData) :
    BState × List (RPath × Bool) :=
  (acc.1 ++ [x],
   if scanKeep s display x.1 x.2 then acc.2 ++ [(x.1, x.2.backup)] else acc.2)

/-- Running `BackupPathStructure.scan`: visit every node of `backuppaths` in
order, returning the (possibly rewritten) node list and the emitted rows. -/
def scanExec (s : BPS) (display : Bool) : BState × List (RPath × Bool) :=
  s.nodes.foldl (scanVisit s display) ([], [])

/-! ### `_read_backup_conf`

The nested dict `{".": flag, name: {...}}` built by
`BackupPathStructure._read_backup_conf` is represented flat: an association
list from the relative path of a level to that level's own `"."` flag, in
creation order.  A named sub-dict exists at a level exactly when the
corresponding path is a key of the flat map, so `folder in res.keys()` is
`(lookupConf m (cur ++ [folder])).isSome`. -/
abbrev ConfMap := List (RPath × Bool)

def lookupConf (m : ConfMap) (p : RPath) : Option Bool :=
  (m.find? (fun x => decide (x.1 = p))).map (·.2)

/-- `result["."] = backup`: insert-or-overwrite of the top level's own flag. -/
def setRootFlag (m : ConfMap) (b : Bool) : ConfMap :=
  if (lookupConf m []).isSome then
    m.map (fun x => if x.1 = [] then ([], b) else x)
  else m ++ [([], b)]

/-- The `for folder in parts` loop of `_read_backup_conf`: descend level by
level, creating each missing level with the row's flag as its `"."` entry
(`res[folder] = {".": backup}` only when `folder not in res.keys()`). -/
def confWalk (b : Bool) : ConfMap → RPath → List String → ConfMap
  | m, _, [] => m
  | m, cur, f :: rest =>
      if (lookupConf m (cur ++ [f])).isSome then
        confWalk b m (cur ++ [f]) rest
      else
        confWalk b (m ++ [(cur ++ [f], b)]) (cur ++ [f]) rest

/-- Processing one csv row `(relative path, backup flag)`. -/
def readConfRow (m : ConfMap) (r : RPath × Bool) : ConfMap :=
  let m' := if r.1 = [] then setRootFlag m r.2 else m
  confWalk r.2 m' [] r.1

/-- `BackupPathStructure._read_backup_conf` applied to the parsed rows of an
existing configuration file. -/
def readConf (rows : List (RPath × Bool)) : ConfMap :=
  rows.foldl readConfRow []

/-! ### `from_backup_conf` -/

/-- The final `bc` reached by the lookup loop of `from_backup_conf`: starting
at the top level, for each path segment descend into it when that key exists
at the current level, otherwise stay. -/
def finalCur (m : ConfMap) : RPath → List String → RPath
  | cur, [] => cur
  | cur, f :: rest =>
      finalCur m
        (if (lookupConf m (cur ++ [f])).isSome then cur ++ [f] else cur) rest

/-- The decision `from_backup_conf` assigns to a node with relative parts
`parts`: the `"."` flag of the last level reached.  `backup = backup_conf["."]`
before the loop raises `KeyError` when the record has no row for the root;
that is the `none` case (every level the loop can otherwise reach has a `"."`
entry by construction). -/
def reconcileDecision (m : ConfMap) (parts : RPath) : Option Bool :=
  if (lookupConf m []).isSome then lookupConf m (finalCur m [] parts)
  else none

/-- The error message of `_read_backup_conf` when no configuration file
exists at `root/.backupy.cfg`. -/
def buildFirstError : String :=
  "No config file found. Please run backupy build first"

/-- `BackupPathStructure.from_backup_conf(root)`: read the configuration file
(raising `buildFirstError` when it does not exist), rebuild the tree with
`cls(root, show=0)` (no include/exclude, no size filter), then overwrite every
node's `backup` flag with the reconciled decision.  The `KeyError` raised on a
record without a root row is a distinct error. -/
def from_backup_conf (fs : Entry) (file : Option (List (RPath × Bool))) :
    Except String BPS :=
  match file with
  | none => .error buildFirstError
  | some rows =>
      if (lookupConf (readConf rows) []).isSome then
        .ok { mkBPS fs [] [] 0 (-1) (-1) true with
                nodes := (mkBPS fs [] [] 0 (-1) (-1) true).nodes.map
                  (fun x =>
                    (x.1, { x.2 with
                              backup := (reconcileDecision (readConf rows)
                                x.1).getD false })) }
      else .error "KeyError: '.'"

/-- `cmd_zip(root)`: reconcile from the configuration file (which propagates
`buildFirstError` when the file is missing), then hand every node with a true
backup flag to the archiver.  The dead re-check of the file's existence after
`from_backup_conf` already succeeded is kept. -/
def cmd_zip (fs : Entry) (file : Option (List (RPath × Bool))) :
    Except String (List RPath) :=
  match from_backup_conf fs file with
  | .error e => .error e
  | .ok s =>
      match file with
      | none => .error "Aborted. Backup configuration doesn't exist"
      | some _ =>
          .ok (s.nodes.filterMap (fun x => if x.2.backup then some x.1 else none))

/-! ### Characterizing the finished construction state

One `createNode` bumps a record once; a whole event sequence bumps it by the
sums over the events whose paths the record's path strictly ancestors. -/

/-- The cumulative effect on the record at path `p` of creating all of `evs`
afterwards: the events below `p` add their own sizes and file counts and OR in
their own decisions. -/
def bumpData (incl excl : List RPath) (filemax : Int) (p : RPath)
    (d : NodeData) (evs : List Event) : NodeData :=
  let rel := evs.filter (fun e => isAnc p e.path)
  { d with
      size := d.size + (rel.map (·.ownSize)).sum,
      n_files := d.n_files + (rel.filter (·.isFile)).length,
      backup := d.backup || rel.any (eventDecision incl excl filemax) }

/-! ### Enumeration lemmas -/

/-- The data of an event that does not depend on sibling position. -/
def evData (e : Event) : RPath × Nat × Bool := (e.path, e.ownSize, e.isFile)

/-! ### The subtree below a path -/

/-- Walk down the filesystem tree along relative path components. -/
def entryWalk : List String → Entry → Option Entry
  | [], t => some t
  | _ :: _, .file _ _ => none
  | f :: rest, .dir _ cs =>
      match cs.find? (fun c => decide (c.name = f)) with
      | some c => entryWalk rest c
      | none => none

/-- Navigate the filesystem tree along relative path components (under
`Entry.WF` sibling names are unique, so this is the subtree at that path). -/
def entryAt (t : Entry) (p : List String) : Option Entry :=
  entryWalk p t

/-- The decision of an event depends only on its sibling-independent data. -/
def dataDecision (incl excl : List RPath) (filemax : Int)
    (x : RPath × Nat × Bool) : Bool :=
  make_namefilter incl excl x.1 && sizefilter filemax x.2.1

/-! ### Master characterization of a finished node

Combining the fold lemmas with the enumeration lemmas: under `Entry.WF`,
every record of the finished node list aggregates exactly the events at or
below its path. -/

/-- The creation events at or below path `p` (the node itself and its whole
subtree, by the pre-order lemmas). -/
def subEvents (df : Bool) (fs : Entry) (p : RPath) : List Event :=
  (enumEntry df [] false fs).filter (fun e2 => p.isPrefixOf e2.path)

/-! ### Node-level decision lemmas -/

/-- The node's own filter decision recomputed from its finished record: the
name filter on its path and the size filter on its own size at construction
time (0 for a directory, the final `size` — which is the own size — for a
file). -/
def nodeOwnDecision (incl excl : List RPath) (fm : Int) (p : RPath)
    (d : NodeData) : Bool :=
  make_namefilter incl excl p && sizefilter fm (if d.isFile then d.size else 0)

/-! ### Small fixture trees used by the witnesses -/

/-- `root/{a/{x,y}, b}` with a 60-byte, a 2 MB and a 10-byte file. -/
def fsA : Entry :=
  .dir "" [.dir "a" [.file "x" 60, .file "y" 2000000], .file "b" 10]

/-- A root holding a single 5-byte file. -/
def fsB : Entry := .dir "" [.file "a" 5]

/-- A root with one large and one small file. -/
def fsC : Entry := .dir "" [.file "big" 100, .file "small" 10]

/-! ### Claim C2 -/

/-- The node's ancestor-or-self chain, deepest first, down to the root. -/
def ancChain (p : RPath) : List RPath :=
  ((List.range (p.length + 1)).reverse).map (fun k => p.take k)

/-- Modelled from the spec's description of the resolution ("the closest
explicitly listed ancestor decides; default include"): find the deepest
ancestor-or-self explicitly listed and return whether it is in the include
set, or include when none is listed. -/
def namefilterSpec (incl excl : List RPath) (p : RPath) : Bool :=
  match (ancChain p).find? (fun q => decide (q ∈ incl) || decide (q ∈ excl)) with
  | some q => decide (q ∈ incl)
  | none => true

/-- The proper-ancestor chain of a path, deepest first, ending at the root. -/
def properAncChain (p : RPath) : List RPath :=
  (List.range p.length).reverse.map (fun k => p.take k)

/-- Modelled from the spec: "the decision falls through to the nearest
ancestor's decision found in the record" — the deepest proper ancestor whose
level exists in the stored mapping, and its own `"."` flag. -/
def nearestAncDec (m : ConfMap) (p : RPath) : Option Bool :=
  match (properAncChain p).find? (fun q => (lookupConf m q).isSome) with
  | some q => lookupConf m q
  | none => none

/-- The decision `from_backup_conf` leaves on the fresh node at `p` (`none`
when reconciliation fails or the fresh tree has no such node). -/
def restoredBackup (fs : Entry) (rows : List (RPath × Bool)) (p : RPath) :
    Option Bool :=
  match from_backup_conf fs (some rows) with
  | .ok s' => (lookupSt s'.nodes p).map (·.backup)
  | .error _ => none

/-! ### Claim C7 -/

/-- Decimal digit characters (for generating many distinct, lexicographically
ascending file names). -/
def digitChar : Nat → Char
  | 0 => '0'
  | 1 => '1'
  | 2 => '2'
  | 3 => '3'
  | 4 => '4'
  | 5 => '5'
  | 6 => '6'
  | 7 => '7'
  | 8 => '8'
  | _ => '9'

/-- The `i`-th generated file name: four decimal digits. -/
def bigName (i : Nat) : String :=
  String.mk [digitChar (i / 1000), digitChar (i / 100 % 10),
    digitChar (i / 10 % 10), digitChar (i % 10)]

/-- 1001 files of size 5 in ascending name order followed by a 2-byte file
`zzzz` — 1002 file leaves, exceeding `max_display`. -/
def bigChildren : List Entry :=
  (List.range 1001).map (fun i => Entry.file (bigName i) 5)
    ++ [Entry.file "zzzz" 2]

def fsBig : Entry := .dir "" bigChildren

/-- Adjacent-pairs Boolean chain check (evaluates sortedness of long concrete
lists in linear time). -/
def chainB {α : Type} (r : α → α → Bool) : List α → Bool
  | [] => true
  | [_] => true
  | a :: b :: l => r a b && chainB r (b :: l)

/-- The C7 sentence as the spec words it: whenever the file population
exceeds the display cap, a non-explicit node within display depth is hidden
exactly when its size is smaller than the size of the cap-th largest file
(`sizedist[max_display - 1]`), and this applies to every scan — the spec
extends the rule to the run that writes the configuration records. -/
def c7SpecClaim (s : BPS) : Prop :=
  ∀ (display : Bool) (p : RPath) (d : NodeData),
    (p, d) ∈ s.nodes → explicitIn s p = false →
    (decide ((d.depth : Int) > s.max_depth_display)
        && decide (s.max_depth_display > -1)) = false →
    s.sizedist.length > max_display →
    (scanSkip s display d = true
      ↔ d.size < s.sizedist.getD (max_display - 1) 0)

/-- A structure state with 1002 distinct, descending file sizes (witness
input for the amended C7). -/
def c7W : BPS :=
  ⟨[], [], [], 0, 0, -1, (List.range 1002).reverse, 0⟩

def c7D : NodeData := ⟨0, 0, false, 0, false, false⟩

theorem mem_insertBy {α : Type} (le : α → α → Bool) (x : α) (l : List α) :
    ∀ y ∈ insertBy le x l, y = x ∨ y ∈ l := by
  induction l with
  | nil => intro y hy; simp [insertBy] at hy; simp [hy]
  | cons z zs ih =>
      intro y hy
      by_cases h : le x z = true
      · simp [insertBy, h] at hy
        rcases hy with hy | hy | hy <;> simp [hy]
      · simp [insertBy, h] at hy
        rcases hy with hy | hy
        · simp [hy]
        · rcases ih y hy with hy | hy <;> simp [hy]

theorem mem_sortBy {α : Type} (le : α → α → Bool) (l : List α) :
    ∀ y ∈ sortBy le l, y ∈ l := by
  induction l with
  | nil => intro y hy; simp [sortBy] at hy
  | cons z zs ih =>
      intro y hy
      rcases mem_insertBy le z (sortBy le zs) y hy with h | h
      · simp [h]
      · exact List.mem_cons_of_mem _ (ih y h)

theorem mem_sortChildren (dir_first : Bool) (cs : List Entry) :
    ∀ c ∈ sortChildren dir_first cs, c ∈ cs := by
  intro c hc
  rcases List.mem_map.mp hc with ⟨pair, hpair, hsnd⟩
  have := mem_sortBy _ _ pair hpair
  rcases List.mem_map.mp this with ⟨c', hc', heq⟩
  subst heq
  simpa [← hsnd] using hc'

theorem mem_markLast : ∀ (l : List Entry), ∀ x ∈ markLast l, x.1 ∈ l := by
  intro l
  induction l with
  | nil => intro x hx; simp [markLast] at hx
  | cons c cs ih =>
      intro x hx
      cases cs with
      | nil =>
          simp only [markLast, List.mem_singleton] at hx
          simp [hx]
      | cons c' cs' =>
          simp only [markLast, List.mem_cons] at hx
          rcases hx with hx | hx
          · simp [hx]
          · exact List.mem_cons_of_mem _ (ih x (by simpa [markLast] using hx))

theorem height_pos : ∀ t : Entry, 1 ≤ t.height := by
  intro t
  cases t with
  | file n sz => rw [Entry.height]
  | dir n cs => rw [Entry.height]; omega

theorem heightList_bound : ∀ (cs : List Entry), ∀ c ∈ cs,
    Entry.height c ≤ Entry.heightList cs := by
  intro cs
  induction cs with
  | nil => intro c hc; simp at hc
  | cons y ys ih =>
      intro c hc
      rw [Entry.heightList]
      rcases List.mem_cons.mp hc with rfl | hc
      · exact le_max_left _ _
      · exact le_trans (ih c hc) (le_max_right _ _)

/-- The fuel does not matter as long as it covers the height. -/
theorem enumFuel_mono (dir_first : Bool) :
    ∀ (k k' : Nat) (t : Entry), t.height ≤ k → t.height ≤ k' →
      ∀ (rp : RPath) (il : Bool),
        enumFuel dir_first k rp il t = enumFuel dir_first k' rp il t := by
  intro k
  induction k with
  | zero =>
      intro k' t hk
      exact absurd hk (by have := height_pos t; omega)
  | succ k ih =>
      intro k' t hk hk' rp il
      cases k' with
      | zero => exact absurd hk' (by have := height_pos t; omega)
      | succ k' =>
          cases t with
          | file n sz => rfl
          | dir n cs =>
              rw [enumFuel, enumFuel]
              congr 1
              apply List.flatMap_congr
              intro cb hcb
              have hc : cb.1 ∈ cs := mem_sortChildren _ _ _ (mem_markLast _ _ hcb)
              have hb := heightList_bound cs cb.1 hc
              have hhk : Entry.height cb.1 ≤ k := by
                rw [Entry.height] at hk; omega
              have hhk' : Entry.height cb.1 ≤ k' := by
                rw [Entry.height] at hk'; omega
              exact ih k' cb.1 hhk hhk' _ _

/-- The defining recursion of the source's `func`, recovered from the
bounded walk. -/
theorem make_namefilter_eq (incl excl : List RPath) (p : RPath) :
    make_namefilter incl excl p =
      if p ∈ incl then true
      else if p ∈ excl then false
      else if p = [] then true
      else make_namefilter incl excl (parentPath p) := by
  cases hp : p with
  | nil => rw [make_namefilter]; simp [namefilterWalk]
  | cons f rest =>
      rw [make_namefilter, List.length_cons, namefilterWalk]
      have hlen : (parentPath (f :: rest)).length = rest.length := by
        simp [parentPath]
      rw [make_namefilter, hlen]

/-! ### Association-list lemmas -/
theorem lookupSt_append (a b : BState) (p : RPath) :
    lookupSt (a ++ b) p = (lookupSt a p).or (lookupSt b p) := by
  simp only [lookupSt, List.find?_append]
  cases List.find? (fun x => decide (x.1 = p)) a <;> simp

theorem lookupSt_map_val (st : BState) (g : RPath → NodeData → NodeData)
    (p : RPath) :
    lookupSt (st.map (fun x => (x.1, g x.1 x.2))) p = (lookupSt st p).map (g p) := by
  induction st with
  | nil => simp [lookupSt]
  | cons y ys ih =>
      by_cases h : y.1 = p
      · subst h; simp [lookupSt, List.find?_cons]
      · simp only [lookupSt, List.map_cons, List.find?_cons, decide_eq_true_eq,
          h, if_neg] at ih ⊢
        simpa [h] using ih

theorem lookupSt_eq_none_iff (st : BState) (p : RPath) :
    lookupSt st p = none ↔ p ∉ st.map (·.1) := by
  induction st with
  | nil => simp [lookupSt]
  | cons y ys ih =>
      by_cases hy : y.1 = p
      · simp [lookupSt, List.find?_cons, hy]
      · have hstep : lookupSt (y :: ys) p = lookupSt ys p := by
          simp [lookupSt, List.find?_cons, hy]
        rw [hstep, ih]
        simp only [List.map_cons, List.mem_cons]
        constructor
        · intro h hc
          rcases hc with hc | hc
          · exact hy hc.symm
          · exact h hc
        · intro h hc
          exact h (Or.inr hc)

theorem mem_of_lookupSt {st : BState} {p : RPath} {d : NodeData}
    (h : lookupSt st p = some d) : (p, d) ∈ st := by
  induction st with
  | nil => simp [lookupSt] at h
  | cons y ys ih =>
      by_cases hy : y.1 = p
      · simp only [lookupSt, List.find?_cons, hy, decide_True, Option.map_some',
          Option.some.injEq] at h
        have : y = (p, d) := by
          cases y
          simp only [Prod.mk.injEq]
          exact ⟨hy, h⟩
        rw [← this]
        exact List.mem_cons_self _ _
      · have hstep : lookupSt (y :: ys) p = lookupSt ys p := by
          simp [lookupSt, List.find?_cons, hy]
        rw [hstep] at h
        exact List.mem_cons_of_mem _ (ih h)

theorem lookupSt_of_mem_nodup {st : BState} {p : RPath} {d : NodeData}
    (hnd : (st.map (·.1)).Nodup) (h : (p, d) ∈ st) : lookupSt st p = some d := by
  induction st with
  | nil => simp at h
  | cons y ys ih =>
      simp only [List.map_cons, List.nodup_cons] at hnd
      rcases List.mem_cons.mp h with h | h
      · subst h; simp [lookupSt, List.find?_cons]
      · have hyp : y.1 ≠ p := by
          intro hcontra
          exact hnd.1 (List.mem_map.mpr ⟨(p, d), h, hcontra.symm⟩)
        simp only [lookupSt, List.find?_cons, decide_eq_true_eq, hyp, if_neg]
        simpa [lookupSt, hyp] using ih hnd.2 h

theorem bumpData_nil (incl excl : List RPath) (filemax : Int) (p : RPath)
    (d : NodeData) : bumpData incl excl filemax p d [] = d := by
  cases d; simp [bumpData]

theorem bumpData_cons (incl excl : List RPath) (filemax : Int) (p : RPath)
    (d : NodeData) (e : Event) (evs : List Event) :
    bumpData incl excl filemax p d (e :: evs)
      = bumpData incl excl filemax p (bumpOne incl excl filemax e p d) evs := by
  by_cases h : isAnc p e.path
  · simp only [bumpData, bumpOne, h, List.filter_cons, if_pos, List.map_cons,
      List.sum_cons, List.any_cons, Bool.or_assoc]
    cases he : e.isFile <;>
      simp [List.filter_cons, he, Nat.add_assoc, Nat.add_comm, Nat.add_left_comm]
  · simp [bumpData, bumpOne, h, List.filter_cons]

theorem lookupSt_createNode_of_some (incl excl : List RPath) (filemax : Int)
    {st : BState} {p : RPath} {d : NodeData} (e : Event)
    (h : lookupSt st p = some d) :
    lookupSt (createNode incl excl filemax st e) p
      = some (bumpOne incl excl filemax e p d) := by
  simp only [createNode, lookupSt_append,
    lookupSt_map_val st (fun q d' => bumpOne incl excl filemax e q d'), h,
    Option.map_some', Option.or_some]

theorem lookupSt_buildFold_of_some (incl excl : List RPath) (filemax : Int)
    {st : BState} {p : RPath} {d : NodeData} (evs : List Event)
    (h : lookupSt st p = some d) :
    lookupSt (buildFold incl excl filemax st evs) p
      = some (bumpData incl excl filemax p d evs) := by
  induction evs generalizing st d with
  | nil => simpa [buildFold, bumpData_nil] using h
  | cons e es ih =>
      have step := lookupSt_createNode_of_some incl excl filemax e h
      have := ih step
      simpa [buildFold, bumpData_cons] using this

theorem keys_createNode (incl excl : List RPath) (filemax : Int) (st : BState)
    (e : Event) :
    (createNode incl excl filemax st e).map (·.1) = st.map (·.1) ++ [e.path] := by
  simp [createNode, List.map_map, Function.comp]

theorem keys_buildFold (incl excl : List RPath) (filemax : Int) (st : BState)
    (evs : List Event) :
    (buildFold incl excl filemax st evs).map (·.1)
      = st.map (·.1) ++ evs.map (·.path) := by
  induction evs generalizing st with
  | nil => simp [buildFold]
  | cons e es ih =>
      simp only [buildFold, List.foldl_cons] at ih ⊢
      rw [ih, keys_createNode]
      simp

theorem lookupSt_buildFold_of_created (incl excl : List RPath) (filemax : Int)
    {st : BState} {p : RPath} (l₁ l₂ : List Event) (e : Event)
    (hst : lookupSt st p = none) (hl₁ : ∀ ev ∈ l₁, ev.path ≠ p)
    (hep : e.path = p) :
    lookupSt (buildFold incl excl filemax st (l₁ ++ e :: l₂)) p
      = some (bumpData incl excl filemax p
          (initData incl excl filemax (buildFold incl excl filemax st l₁) e) l₂) := by
  have hsplit : buildFold incl excl filemax st (l₁ ++ e :: l₂)
      = buildFold incl excl filemax
          (createNode incl excl filemax (buildFold incl excl filemax st l₁) e) l₂ := by
    simp [buildFold, List.foldl_append]
  rw [hsplit]
  have hnone : lookupSt (buildFold incl excl filemax st l₁) p = none := by
    rw [lookupSt_eq_none_iff, keys_buildFold]
    rw [lookupSt_eq_none_iff] at hst
    intro hmem
    rcases List.mem_append.mp hmem with h | h
    · exact hst h
    · rcases List.mem_map.mp h with ⟨ev, hev, hevp⟩
      exact hl₁ ev hev hevp
  apply lookupSt_buildFold_of_some
  have hmap : lookupSt ((buildFold incl excl filemax st l₁).map
      (fun x => (x.1, bumpOne incl excl filemax e x.1 x.2))) p = none := by
    rw [lookupSt_map_val, hnone]; rfl
  simp only [createNode, lookupSt_append, hmap, Option.none_or]
  simp [lookupSt, List.find?_cons, hep]

theorem markLast_map_fst : ∀ l : List Entry, (markLast l).map (·.1) = l := by
  intro l
  induction l with
  | nil => rfl
  | cons c cs ih =>
      cases cs with
      | nil => rfl
      | cons c' cs' => simpa [markLast] using ih

theorem flatMap_attach {α β : Type} (l : List α) (g : α → List β) :
    l.attach.flatMap (fun x => g x.1) = l.flatMap g := by
  rw [List.flatMap_def, List.flatMap_def, List.attach_map_val l g]

theorem enumEntry_file (df : Bool) (rp : RPath) (il : Bool) (n : String)
    (sz : Nat) : enumEntry df rp il (.file n sz) = [⟨rp, sz, true, il⟩] := rfl

theorem enumEntry_dir (df : Bool) (rp : RPath) (il : Bool) (n : String)
    (cs : List Entry) :
    enumEntry df rp il (.dir n cs) =
      ⟨rp, 0, false, il⟩ ::
        (markLast (sortChildren df cs)).flatMap
          (fun cb => enumEntry df (rp ++ [cb.1.name]) cb.2 cb.1) := by
  have hh : Entry.height (.dir n cs) = Entry.heightList cs + 1 := by
    rw [Entry.height]; omega
  rw [enumEntry, hh, enumFuel]
  congr 1
  apply List.flatMap_congr
  intro cb hcb
  rw [enumEntry]
  exact enumFuel_mono df (Entry.heightList cs) (Entry.height cb.1) cb.1
    (heightList_bound cs cb.1 (mem_sortChildren _ _ _ (mem_markLast _ _ hcb)))
    (le_refl _) _ _

/-- The sibling-independent projection of an enumeration does not depend on
the `is_last` flag handed to the subtree root. -/
theorem enum_evData_il (df : Bool) (rp : RPath) (il il' : Bool) (t : Entry) :
    (enumEntry df rp il t).map evData = (enumEntry df rp il' t).map evData := by
  cases t with
  | file n sz => simp [enumEntry_file, evData]
  | dir n cs => simp [enumEntry_dir, evData]

theorem perm_insertBy {α : Type} (le : α → α → Bool) (x : α) (l : List α) :
    (insertBy le x l).Perm (x :: l) := by
  induction l with
  | nil => simp [insertBy]
  | cons y ys ih =>
      by_cases h : le x y = true
      · simp [insertBy, h]
      · simp only [insertBy, h, Bool.false_eq_true, if_false]
        exact (ih.cons y).trans (List.Perm.swap x y ys)

theorem perm_sortBy {α : Type} (le : α → α → Bool) (l : List α) :
    (sortBy le l).Perm l := by
  induction l with
  | nil => simp [sortBy]
  | cons y ys ih =>
      exact (perm_insertBy le y (sortBy le ys)).trans (ih.cons y)

theorem perm_sortChildren (df : Bool) (cs : List Entry) :
    (sortChildren df cs).Perm cs := by
  unfold sortChildren
  have h := (perm_sortBy (fun a b : (Bool × String) × Entry => keyLe a.1 b.1)
    (cs.map (fun c => (childKey df c, c)))).map (·.2)
  simpa [List.map_map, Function.comp_def] using h

theorem namesOk_iff_nodup : ∀ l : List String, namesOk l = true ↔ l.Nodup := by
  intro l
  induction l with
  | nil => simp [namesOk]
  | cons x xs ih =>
      rw [namesOk]
      simp only [Bool.and_eq_true, Bool.not_eq_true', List.nodup_cons, ← ih]
      constructor
      · rintro ⟨h1, h2⟩
        refine ⟨fun hm => ?_, h2⟩
        rw [List.contains_eq_any_beq] at h1
        have hany : xs.any (x == ·) = true :=
          List.any_eq_true.mpr ⟨x, hm, by simp⟩
        rw [hany] at h1
        exact Bool.noConfusion h1
      · rintro ⟨h1, h2⟩
        refine ⟨?_, h2⟩
        rw [List.contains_eq_any_beq]
        cases hb : xs.any (x == ·) with
        | false => rfl
        | true =>
            exfalso
            rcases List.any_eq_true.mp hb with ⟨y, hy, hxy⟩
            have hxeq : x = y := by simpa using hxy
            exact h1 (by rw [hxeq]; exact hy)

theorem wfList_mem : ∀ {cs : List Entry}, Entry.WFList cs = true →
    ∀ {c : Entry}, c ∈ cs → Entry.WF c = true := by
  intro cs
  induction cs with
  | nil => intro _ c hc; simp at hc
  | cons y ys ih =>
      intro h c hc
      rw [Entry.WFList] at h
      simp only [Bool.and_eq_true] at h
      rcases List.mem_cons.mp hc with rfl | hc
      · exact h.1
      · exact ih h.2 hc

theorem wf_dir {n : String} {cs : List Entry}
    (h : Entry.WF (.dir n cs) = true) :
    (cs.map Entry.name).Nodup ∧ Entry.WFList cs = true := by
  rw [Entry.WF] at h
  simp only [Bool.and_eq_true] at h
  exact ⟨(namesOk_iff_nodup _).mp h.1, h.2⟩

theorem nodup_names_unique {cs : List Entry} (h : (cs.map Entry.name).Nodup)
    {a b : Entry} (ha : a ∈ cs) (hb : b ∈ cs) (hn : a.name = b.name) :
    a = b := by
  induction cs with
  | nil => simp at ha
  | cons y ys ih =>
      simp only [List.map_cons, List.nodup_cons] at h
      obtain ⟨hy, hys⟩ := h
      rcases List.mem_cons.mp ha with ha1 | ha1
      · rcases List.mem_cons.mp hb with hb1 | hb1
        · rw [ha1, hb1]
        · exfalso
          apply hy
          rw [← ha1]
          exact List.mem_map.mpr ⟨b, hb1, hn.symm⟩
      · rcases List.mem_cons.mp hb with hb1 | hb1
        · exfalso
          apply hy
          rw [← hb1]
          exact List.mem_map.mpr ⟨a, ha1, hn⟩
        · exact ih hys ha1 hb1

/-- `isAnc` unfolded to propositions. -/
theorem isAnc_iff {q p : RPath} :
    isAnc q p = true ↔ q <+: p ∧ q.length < p.length := by
  simp [isAnc, List.isPrefixOf_iff_prefix]

theorem isAnc_eq_false_iff {q p : RPath} :
    isAnc q p = false ↔ ¬(q <+: p ∧ q.length < p.length) := by
  rw [← Bool.not_eq_true, isAnc_iff]

/-- Strict ancestry in terms of plain prefixes: for distinct paths a prefix
is strict. -/
theorem isAnc_iff_ne {q p : RPath} :
    isAnc q p = true ↔ q <+: p ∧ q ≠ p := by
  rw [isAnc_iff]
  constructor
  · rintro ⟨hpre, hlen⟩
    exact ⟨hpre, fun h => by simp [h] at hlen⟩
  · rintro ⟨hpre, hne⟩
    refine ⟨hpre, lt_of_le_of_ne hpre.length_le ?_⟩
    intro hlen
    exact hne (hpre.eq_of_length hlen)

theorem prefix_same_length_eq {l₁ l₂ l₃ : RPath} (h1 : l₁ <+: l₃)
    (h2 : l₂ <+: l₃) (hlen : l₁.length = l₂.length) : l₁ = l₂ := by
  rcases List.prefix_or_prefix_of_prefix h1 h2 with h | h
  · exact h.eq_of_length hlen
  · exact (h.eq_of_length hlen.symm).symm

theorem snoc_inj_name {rp : RPath} {n n' : String}
    (h : rp ++ [n] = rp ++ [n']) : n = n' := by
  have := List.append_cancel_left h
  simpa using this

/-- Every node yielded for a subtree lies at or below the subtree's root. -/
theorem enum_path_extends (df : Bool) :
    ∀ (N : Nat), ∀ (t : Entry), sizeOf t ≤ N → ∀ (rp : RPath) (il : Bool),
      ∀ e ∈ enumEntry df rp il t, rp <+: e.path := by
  intro N
  induction N using Nat.strong_induction_on with
  | _ N ih =>
      intro t ht rp il e he
      cases t with
      | file n sz =>
          rw [enumEntry_file] at he
          simp only [List.mem_singleton] at he
          subst he
          exact List.prefix_refl _
      | dir n cs =>
          rw [enumEntry_dir] at he
          rcases List.mem_cons.mp he with rfl | he
          · exact List.prefix_refl _
          · rcases List.mem_flatMap.mp he with ⟨cb, hcb, hin⟩
            have hc : cb.1 ∈ cs := mem_sortChildren _ _ _ (mem_markLast _ _ hcb)
            have hsz : sizeOf cb.1 < sizeOf (Entry.dir n cs) := by
              have h1 := List.sizeOf_lt_of_mem hc
              simp only [Entry.dir.sizeOf_spec]
              omega
            have := ih (sizeOf cb.1) (lt_of_lt_of_le hsz ht) cb.1 (le_refl _)
              (rp ++ [cb.1.name]) cb.2 e hin
            exact (List.prefix_append rp [cb.1.name]).trans this

theorem pairwise_flatMap {α β : Type} {R : β → β → Prop} (l : List α)
    (g : α → List β) (hin : ∀ a ∈ l, (g a).Pairwise R)
    (hcross : l.Pairwise (fun a a' => ∀ b ∈ g a, ∀ b' ∈ g a', R b b')) :
    (l.flatMap g).Pairwise R := by
  induction l with
  | nil => simp
  | cons a as ih =>
      rw [List.flatMap_cons, List.pairwise_append]
      obtain ⟨hhead, htail⟩ := List.pairwise_cons.mp hcross
      refine ⟨hin a (by simp), ih (fun x hx => hin x (by simp [hx])) htail, ?_⟩
      intro b hb b' hb'
      rcases List.mem_flatMap.mp hb' with ⟨a', ha', hb''⟩
      exact hhead a' ha' b hb b' hb''

/-- The names of the marked child list are pairwise distinct when the
directory listing is well formed. -/
theorem markLast_names_pairwise (df : Bool) {cs : List Entry}
    (h : (cs.map Entry.name).Nodup) :
    (markLast (sortChildren df cs)).Pairwise
      (fun x y => x.1.name ≠ y.1.name) := by
  have hperm : ((sortChildren df cs).map Entry.name).Perm (cs.map Entry.name) :=
    (perm_sortChildren df cs).map _
  have hnd : ((sortChildren df cs).map Entry.name).Nodup :=
    hperm.nodup_iff.mpr h
  have hpw : (sortChildren df cs).Pairwise
      (fun c c' => c.name ≠ c'.name) := List.pairwise_map.mp hnd
  have : ((markLast (sortChildren df cs)).map (·.1)).Pairwise
      (fun c c' => c.name ≠ c'.name) := by
    rw [markLast_map_fst]
    exact hpw
  rw [List.pairwise_map] at this
  exact this

/-- Pre-order: no node yielded later has a path that is a prefix (ancestor or
duplicate) of an earlier node's path. -/
theorem enum_no_later_ancestor (df : Bool) :
    ∀ (N : Nat), ∀ (t : Entry), sizeOf t ≤ N → Entry.WF t = true →
      ∀ (rp : RPath) (il : Bool),
      (enumEntry df rp il t).Pairwise (fun a b => ¬ b.path <+: a.path) := by
  intro N
  induction N using Nat.strong_induction_on with
  | _ N ih =>
      intro t ht hwf rp il
      cases t with
      | file n sz =>
          rw [enumEntry_file]
          exact List.pairwise_singleton _ _
      | dir n cs =>
          obtain ⟨hnames, hwfl⟩ := wf_dir hwf
          rw [enumEntry_dir, List.pairwise_cons]
          constructor
          · intro b hb hpre
            rcases List.mem_flatMap.mp hb with ⟨cb, hcb, hin⟩
            have hext := enum_path_extends df (sizeOf cb.1) cb.1 (le_refl _)
              (rp ++ [cb.1.name]) cb.2 b hin
            have h1 : rp.length + 1 ≤ b.path.length := by
              have := hext.length_le
              simpa using this
            have h2 : b.path.length ≤ rp.length := hpre.length_le
            omega
          · apply pairwise_flatMap
            · intro cb hcb
              have hc : cb.1 ∈ cs := mem_sortChildren _ _ _ (mem_markLast _ _ hcb)
              have hsz : sizeOf cb.1 < sizeOf (Entry.dir n cs) := by
                have h1 := List.sizeOf_lt_of_mem hc
                simp only [Entry.dir.sizeOf_spec]
                omega
              exact ih (sizeOf cb.1) (lt_of_lt_of_le hsz ht) cb.1 (le_refl _)
                (wfList_mem hwfl hc) _ _
            · have hpw := markLast_names_pairwise df hnames
              apply hpw.imp
              intro cb cb' hne b hb b' hb'
              have hextb := enum_path_extends df (sizeOf cb.1) cb.1 (le_refl _)
                (rp ++ [cb.1.name]) cb.2 b hb
              have hextb' := enum_path_extends df (sizeOf cb'.1) cb'.1 (le_refl _)
                (rp ++ [cb'.1.name]) cb'.2 b' hb'
              intro hpre
              have h1 : (rp ++ [cb'.1.name]) <+: b.path := hextb'.trans hpre
              have h2 : (rp ++ [cb.1.name]) = (rp ++ [cb'.1.name]) :=
                prefix_same_length_eq hextb h1 (by simp)
              exact hne (snoc_inj_name h2)

/-- Under `Entry.WF` the yielded paths are pairwise distinct. -/
theorem enum_paths_nodup (df : Bool) (t : Entry) (hwf : Entry.WF t = true)
    (rp : RPath) (il : Bool) :
    ((enumEntry df rp il t).map (·.path)).Nodup := by
  have h := enum_no_later_ancestor df (sizeOf t) t (le_refl _) hwf rp il
  rw [List.Nodup, List.pairwise_map]
  apply h.imp
  intro a b hab heq
  exact hab (heq ▸ List.prefix_refl _)

theorem flatMap_eq_flatMap_filter {α β : Type} (P : α → Bool) (l : List α)
    (g : α → List β) (h : ∀ b ∈ l, P b = false → g b = []) :
    l.flatMap g = (l.filter P).flatMap g := by
  induction l with
  | nil => rfl
  | cons a as ih =>
      have ih' := ih (fun b hb => h b (List.mem_cons_of_mem _ hb))
      cases hPa : P a
      · rw [List.flatMap_cons, h a (List.mem_cons_self _ _) hPa,
          List.filter_cons, hPa]
        simpa using ih'
      · rw [List.flatMap_cons, List.filter_cons, hPa]
        simp [ih']

theorem filter_eq_single_names (l : List (Entry × Bool))
    (hpw : l.Pairwise (fun x y => x.1.name ≠ y.1.name)) (a : Entry × Bool)
    (ha : a ∈ l) (f : String) (hf : a.1.name = f) :
    l.filter (fun cb => decide (cb.1.name = f)) = [a] := by
  induction l with
  | nil => simp at ha
  | cons y ys ih =>
      obtain ⟨hhead, htail⟩ := List.pairwise_cons.mp hpw
      rcases List.mem_cons.mp ha with rfl | ha1
      · rw [List.filter_cons, if_pos (by simpa using hf)]
        have : ys.filter (fun cb => decide (cb.1.name = f)) = [] := by
          rw [List.filter_eq_nil_iff]
          intro b hb
          simp only [decide_eq_true_eq]
          intro hbf
          exact hhead b hb (hf.trans hbf.symm)
        rw [this]
      · have hyf : ¬ y.1.name = f := by
          intro hyf
          exact hhead a ha1 (hyf.trans hf.symm)
        rw [List.filter_cons, if_neg (by simpa using hyf)]
        exact ih htail ha1

/-- Restricting an enumeration to the paths at or below `rp ++ q` yields,
up to sibling-position data, exactly the enumeration of the subtree of the
filesystem at `q`. -/
theorem enum_filter_subtree (df : Bool) :
    ∀ (N : Nat), ∀ (t : Entry), sizeOf t ≤ N → Entry.WF t = true →
      ∀ (q : List String) (u : Entry), entryAt t q = some u →
      ∀ (rp : RPath) (il : Bool),
        ((enumEntry df rp il t).filter
            (fun e => (rp ++ q).isPrefixOf e.path)).map evData
          = (enumEntry df (rp ++ q) false u).map evData := by
  intro N
  induction N using Nat.strong_induction_on with
  | _ N ih =>
      intro t ht hwf q u hat rp il
      cases q with
      | nil =>
          rw [entryAt, entryWalk] at hat
          injection hat with hat
          subst hat
          have hall : (enumEntry df rp il t).filter
              (fun e => (rp ++ []).isPrefixOf e.path) = enumEntry df rp il t := by
            rw [List.filter_eq_self]
            intro e he
            rw [List.isPrefixOf_iff_prefix]
            simpa using enum_path_extends df (sizeOf t) t (le_refl _) rp il e he
          rw [hall]
          simpa using enum_evData_il df rp il false t
      | cons f rest =>
          cases t with
          | file n sz =>
              rw [entryAt, entryWalk] at hat
              exact absurd hat (by simp)
          | dir n cs =>
              rw [entryAt, entryWalk] at hat
              obtain ⟨hnames, hwfl⟩ := wf_dir hwf
              cases hfind : cs.find? (fun c => decide (c.name = f)) with
              | none => rw [hfind] at hat; exact absurd hat (by simp)
              | some c =>
                  rw [hfind] at hat
                  have hcname : c.name = f := by
                    simpa using List.find?_some hfind
                  have hcmem : c ∈ cs := List.mem_of_find?_eq_some hfind
                  rw [enumEntry_dir, List.filter_cons]
                  have hheadpred :
                      ((rp ++ f :: rest).isPrefixOf rp : Bool) = false := by
                    cases hp : ((rp ++ f :: rest).isPrefixOf rp : Bool)
                    · rfl
                    · exfalso
                      have := (List.isPrefixOf_iff_prefix.mp hp).length_le
                      simp only [List.length_append, List.length_cons] at this
                      omega
                  rw [hheadpred]
                  simp only [Bool.false_eq_true, if_false]
                  rw [List.filter_flatMap]
                  have hmemsort : c ∈ sortChildren df cs :=
                    (perm_sortChildren df cs).mem_iff.mpr hcmem
                  have hmemml : c ∈ (markLast (sortChildren df cs)).map (·.1) := by
                    rw [markLast_map_fst]; exact hmemsort
                  rcases List.mem_map.mp hmemml with ⟨cb0, hcb0, hfst0⟩
                  have hzero : ∀ cb ∈ markLast (sortChildren df cs),
                      (decide (cb.1.name = f) : Bool) = false →
                      (enumEntry df (rp ++ [cb.1.name]) cb.2 cb.1).filter
                        (fun e => (rp ++ f :: rest).isPrefixOf e.path) = [] := by
                    intro cb hcb hnf
                    rw [List.filter_eq_nil_iff]
                    intro e he hpred
                    have hpre := enum_path_extends df (sizeOf cb.1) cb.1
                      (le_refl _) (rp ++ [cb.1.name]) cb.2 e he
                    have hpred' : (rp ++ [f]) <+: e.path := by
                      refine List.IsPrefix.trans ?_
                        (List.isPrefixOf_iff_prefix.mp hpred)
                      have : rp ++ f :: rest = (rp ++ [f]) ++ rest := by simp
                      rw [this]
                      exact List.prefix_append _ _
                    have heqp : rp ++ [cb.1.name] = rp ++ [f] :=
                      prefix_same_length_eq hpre hpred' (by simp)
                    have : cb.1.name = f := snoc_inj_name heqp
                    simp [this] at hnf
                  rw [flatMap_eq_flatMap_filter (fun cb => decide (cb.1.name = f))
                    _ _ hzero]
                  have hfilter1 : (markLast (sortChildren df cs)).filter
                      (fun cb => decide (cb.1.name = f)) = [cb0] := by
                    apply filter_eq_single_names _
                      (markLast_names_pairwise df hnames) cb0 hcb0
                    rw [hfst0]; exact hcname
                  rw [hfilter1]
                  simp only [List.flatMap_cons, List.flatMap_nil,
                    List.append_nil]
                  have hsz : sizeOf cb0.1 < sizeOf (Entry.dir n cs) := by
                    have h1 := List.sizeOf_lt_of_mem
                      (mem_sortChildren _ _ _ (mem_markLast _ _ hcb0))
                    simp only [Entry.dir.sizeOf_spec]
                    omega
                  have hassoc : rp ++ f :: rest = (rp ++ [f]) ++ rest := by simp
                  have hihres := ih (sizeOf cb0.1) (lt_of_lt_of_le hsz ht) cb0.1
                    (le_refl _) (wfList_mem hwfl
                      (mem_sortChildren _ _ _ (mem_markLast _ _ hcb0)))
                    rest u (by rw [hfst0]; exact hat) (rp ++ [f]) cb0.2
                  rw [hfst0] at hihres
                  rw [hfst0, hcname, hassoc]
                  exact hihres

/-! ### Aggregates of an enumeration -/
theorem sum_map_flatMap {α β : Type} (l : List α) (g : α → List β)
    (f : β → Nat) :
    ((l.flatMap g).map f).sum = (l.map (fun a => ((g a).map f).sum)).sum := by
  induction l with
  | nil => rfl
  | cons a as ih =>
      rw [List.flatMap_cons, List.map_append, List.sum_append, List.map_cons,
        List.sum_cons, ih]

theorem totalFileSizeList_eq_sum (cs : List Entry) :
    Entry.totalFileSizeList cs = (cs.map Entry.totalFileSize).sum := by
  induction cs with
  | nil => rfl
  | cons c cs ih => rw [Entry.totalFileSizeList, List.map_cons, List.sum_cons, ih]

theorem countFilesList_eq_sum (cs : List Entry) :
    Entry.countFilesList cs = (cs.map Entry.countFiles).sum := by
  induction cs with
  | nil => rfl
  | cons c cs ih => rw [Entry.countFilesList, List.map_cons, List.sum_cons, ih]

/-- The own sizes of a subtree's nodes sum to the subtree's total file size
(directories contribute 0). -/
theorem enum_sum_ownSize (df : Bool) :
    ∀ (N : Nat), ∀ (t : Entry), sizeOf t ≤ N → ∀ (rp : RPath) (il : Bool),
      ((enumEntry df rp il t).map (·.ownSize)).sum = t.totalFileSize := by
  intro N
  induction N using Nat.strong_induction_on with
  | _ N ih =>
      intro t ht rp il
      cases t with
      | file n sz => rw [enumEntry_file]; simp [Entry.totalFileSize]
      | dir n cs =>
          rw [enumEntry_dir, List.map_cons, List.sum_cons, sum_map_flatMap]
          have hcongr : (markLast (sortChildren df cs)).map
              (fun cb => ((enumEntry df (rp ++ [cb.1.name]) cb.2 cb.1).map
                (·.ownSize)).sum)
              = (markLast (sortChildren df cs)).map
                  (fun cb => cb.1.totalFileSize) := by
            apply List.map_congr_left
            intro cb hcb
            have hc := mem_sortChildren _ _ _ (mem_markLast _ _ hcb)
            have hsz : sizeOf cb.1 < sizeOf (Entry.dir n cs) := by
              have h1 := List.sizeOf_lt_of_mem hc
              simp only [Entry.dir.sizeOf_spec]
              omega
            exact ih (sizeOf cb.1) (lt_of_lt_of_le hsz ht) cb.1 (le_refl _) _ _
          rw [hcongr]
          have hmm : (markLast (sortChildren df cs)).map
              (fun cb => cb.1.totalFileSize)
              = ((markLast (sortChildren df cs)).map (·.1)).map
                  Entry.totalFileSize := by
            rw [List.map_map]; rfl
          rw [hmm, markLast_map_fst]
          have hperm : ((sortChildren df cs).map Entry.totalFileSize).Perm
              (cs.map Entry.totalFileSize) := (perm_sortChildren df cs).map _
          rw [hperm.sum_eq, Entry.totalFileSize, totalFileSizeList_eq_sum]
          simp

/-- The own file-counts of a subtree's nodes sum to its file count. -/
theorem enum_sum_isFile (df : Bool) :
    ∀ (N : Nat), ∀ (t : Entry), sizeOf t ≤ N → ∀ (rp : RPath) (il : Bool),
      ((enumEntry df rp il t).map
          (fun e => if e.isFile then 1 else 0)).sum = t.countFiles := by
  intro N
  induction N using Nat.strong_induction_on with
  | _ N ih =>
      intro t ht rp il
      cases t with
      | file n sz =>
          rw [enumEntry_file]
          simp [Entry.countFiles]
      | dir n cs =>
          rw [enumEntry_dir, List.map_cons, List.sum_cons, sum_map_flatMap]
          have hcongr : (markLast (sortChildren df cs)).map
              (fun cb => ((enumEntry df (rp ++ [cb.1.name]) cb.2 cb.1).map
                (fun e => if e.isFile then 1 else 0)).sum)
              = (markLast (sortChildren df cs)).map
                  (fun cb => cb.1.countFiles) := by
            apply List.map_congr_left
            intro cb hcb
            have hc := mem_sortChildren _ _ _ (mem_markLast _ _ hcb)
            have hsz : sizeOf cb.1 < sizeOf (Entry.dir n cs) := by
              have h1 := List.sizeOf_lt_of_mem hc
              simp only [Entry.dir.sizeOf_spec]
              omega
            exact ih (sizeOf cb.1) (lt_of_lt_of_le hsz ht) cb.1 (le_refl _) _ _
          rw [hcongr]
          have hmm : (markLast (sortChildren df cs)).map
              (fun cb => cb.1.countFiles)
              = ((markLast (sortChildren df cs)).map (·.1)).map
                  Entry.countFiles := by
            rw [List.map_map]; rfl
          rw [hmm, markLast_map_fst]
          have hperm : ((sortChildren df cs).map Entry.countFiles).Perm
              (cs.map Entry.countFiles) := (perm_sortChildren df cs).map _
          rw [hperm.sum_eq, Entry.countFiles, countFilesList_eq_sum]
          simp

theorem length_filter_eq_sum {α : Type} (P : α → Bool) (l : List α) :
    (l.filter P).length = (l.map (fun a => if P a then 1 else 0)).sum := by
  induction l with
  | nil => rfl
  | cons a as ih =>
      rw [List.filter_cons, List.map_cons, List.sum_cons]
      cases hPa : P a <;> simp [hPa, ih, Nat.add_comm]

/-- The first yielded node of a subtree is the subtree root itself. -/
theorem enum_head (df : Bool) (rp : RPath) (il : Bool) (t : Entry) :
    ∃ tl, enumEntry df rp il t = ⟨rp, t.ownSize, t.isFile, il⟩ :: tl := by
  cases t with
  | file n sz => exact ⟨[], by rw [enumEntry_file]; rfl⟩
  | dir n cs => exact ⟨_, by rw [enumEntry_dir]; rfl⟩

theorem eventDecision_eq_dataDecision (incl excl : List RPath) (filemax : Int)
    (e : Event) :
    eventDecision incl excl filemax e = dataDecision incl excl filemax (evData e) := rfl

theorem buildNodes_char (df : Bool) (fs : Entry) (incl excl : List RPath)
    (fm : Int) (hwf : Entry.WF fs = true) (p : RPath) (d : NodeData)
    (hmem : (p, d) ∈ buildNodes fs incl excl fm df) :
    ∃ e : Event, e.path = p ∧ e ∈ enumEntry df [] false fs ∧
      d.isFile = e.isFile ∧ d.is_last = e.is_last ∧
      d.size = ((subEvents df fs p).map (·.ownSize)).sum ∧
      d.n_files = ((subEvents df fs p).filter (·.isFile)).length ∧
      d.backup = (subEvents df fs p).any (eventDecision incl excl fm) := by
  classical
  set evs := enumEntry df [] false fs with hevs
  have hkeys : (buildNodes fs incl excl fm df).map (·.1) = evs.map (·.path) := by
    rw [buildNodes, keys_buildFold]
    rfl
  have hnd : ((buildNodes fs incl excl fm df).map (·.1)).Nodup := by
    rw [hkeys]
    exact enum_paths_nodup df fs hwf [] false
  have hlook : lookupSt (buildNodes fs incl excl fm df) p = some d :=
    lookupSt_of_mem_nodup hnd hmem
  have hpkeys : p ∈ evs.map (·.path) := by
    rw [← hkeys]
    exact List.mem_map.mpr ⟨(p, d), hmem, rfl⟩
  rcases List.mem_map.mp hpkeys with ⟨e, hemem, hep⟩
  rcases List.append_of_mem hemem with ⟨l₁, l₂, hsplit⟩
  have hndpaths : (evs.map (·.path)).Nodup := enum_paths_nodup df fs hwf [] false
  have hpaths_split : evs.map (·.path)
      = l₁.map (·.path) ++ e.path :: l₂.map (·.path) := by
    rw [hsplit]; simp
  have hpnotl₁ : ∀ ev ∈ l₁, ev.path ≠ p := by
    intro ev hev heq
    rw [hpaths_split] at hndpaths
    rcases List.nodup_append.mp hndpaths with ⟨_, _, hdisj⟩
    exact hdisj (List.mem_map.mpr ⟨ev, hev, heq.trans hep.symm⟩)
      (List.mem_cons_self _ _)
  have hpnotl₂ : ∀ ev ∈ l₂, ev.path ≠ p := by
    intro ev hev heq
    rw [hpaths_split] at hndpaths
    rcases List.nodup_append.mp hndpaths with ⟨_, hnd2, _⟩
    rcases List.nodup_cons.mp hnd2 with ⟨hnotin, _⟩
    exact hnotin (List.mem_map.mpr ⟨ev, hev, heq.trans hep.symm⟩)
  have hcreated := lookupSt_buildFold_of_created incl excl fm l₁ l₂ e
    (show lookupSt ([] : BState) p = none by simp [lookupSt]) hpnotl₁ hep
  rw [buildNodes, ← hevs, hsplit] at hlook
  rw [hcreated] at hlook
  injection hlook with hd
  -- the subtree events: the creating event, then the strictly deeper ones
  have hpw := enum_no_later_ancestor df (sizeOf fs) fs (le_refl _) hwf [] false
  rw [← hevs, hsplit] at hpw
  have hl₁filter : l₁.filter (fun e2 => p.isPrefixOf e2.path) = [] := by
    rw [List.filter_eq_nil_iff]
    intro a ha hpre
    rcases List.pairwise_append.mp hpw with ⟨_, _, hcross⟩
    exact hcross a ha e (List.mem_cons_self _ _)
      (hep ▸ List.isPrefixOf_iff_prefix.mp hpre)
  have hl₂filter : l₂.filter (fun e2 => p.isPrefixOf e2.path)
      = l₂.filter (fun e2 => isAnc p e2.path) := by
    apply List.filter_congr
    intro a ha
    cases hpre2 : (p.isPrefixOf a.path : Bool) with
    | true =>
        have hpre := List.isPrefixOf_iff_prefix.mp hpre2
        have hne : p ≠ a.path := fun h => hpnotl₂ a ha h.symm
        exact (isAnc_iff_ne.mpr ⟨hpre, hne⟩).symm
    | false => simp [isAnc, List.isPrefixOf, hpre2]
  have hkeep : (p.isPrefixOf e.path : Bool) = true := by
    rw [hep]
    exact List.isPrefixOf_iff_prefix.mpr (List.prefix_refl p)
  have hsubfilter : subEvents df fs p
      = e :: l₂.filter (fun e2 => isAnc p e2.path) := by
    rw [subEvents, ← hevs, hsplit, List.filter_append, hl₁filter,
      List.filter_cons, hkeep, hl₂filter]
    simp
  refine ⟨e, hep, hemem, ?_, ?_, ?_, ?_, ?_⟩
  · rw [← hd]; rfl
  · rw [← hd]; rfl
  · rw [hsubfilter, ← hd]
    simp only [bumpData, initData, List.map_cons, List.sum_cons]
  · rw [hsubfilter, ← hd]
    simp only [bumpData, initData]
    rw [List.filter_cons]
    cases hf : e.isFile <;>
      simp [length_filter_eq_sum, hf, Nat.add_comm]
  · rw [hsubfilter, ← hd]
    simp only [bumpData, initData, List.any_cons]

/-! ### Subtree corollaries -/
theorem subEvents_evData (df : Bool) (fs : Entry) (p : RPath)
    (hwf : Entry.WF fs = true) (u : Entry) (hat : entryAt fs p = some u) :
    (subEvents df fs p).map evData = (enumEntry df p false u).map evData := by
  have h := enum_filter_subtree df (sizeOf fs) fs (le_refl _) hwf p u hat [] false
  simpa [subEvents] using h

theorem subEvents_sum_ownSize (df : Bool) (fs : Entry) (p : RPath)
    (hwf : Entry.WF fs = true) (u : Entry) (hat : entryAt fs p = some u) :
    ((subEvents df fs p).map (·.ownSize)).sum = u.totalFileSize := by
  have h1 : (subEvents df fs p).map (·.ownSize)
      = ((subEvents df fs p).map evData).map (·.2.1) := by
    rw [List.map_map]; rfl
  have h2 : (enumEntry df p false u).map (·.ownSize)
      = ((enumEntry df p false u).map evData).map (·.2.1) := by
    rw [List.map_map]; rfl
  rw [h1, subEvents_evData df fs p hwf u hat, ← h2]
  exact enum_sum_ownSize df (sizeOf u) u (le_refl _) p false

theorem subEvents_count_isFile (df : Bool) (fs : Entry) (p : RPath)
    (hwf : Entry.WF fs = true) (u : Entry) (hat : entryAt fs p = some u) :
    ((subEvents df fs p).filter (·.isFile)).length = u.countFiles := by
  rw [length_filter_eq_sum]
  have h1 : (subEvents df fs p).map (fun e => if e.isFile then 1 else 0)
      = ((subEvents df fs p).map evData).map (fun x => if x.2.2 then 1 else 0) := by
    rw [List.map_map]; rfl
  have h2 : (enumEntry df p false u).map (fun e => if e.isFile then 1 else 0)
      = ((enumEntry df p false u).map evData).map
          (fun x => if x.2.2 then 1 else 0) := by
    rw [List.map_map]; rfl
  rw [h1, subEvents_evData df fs p hwf u hat, ← h2]
  exact enum_sum_isFile df (sizeOf u) u (le_refl _) p false

theorem any_comp_map {α β : Type} (l : List α) (f : α → β) (g : β → Bool) :
    (l.map f).any g = l.any (fun a => g (f a)) := by
  induction l with
  | nil => rfl
  | cons x xs ih => simp [ih]

theorem subEvents_any_decision (df : Bool) (fs : Entry) (p : RPath)
    (incl excl : List RPath) (fm : Int)
    (hwf : Entry.WF fs = true) (u : Entry) (hat : entryAt fs p = some u) :
    (subEvents df fs p).any (eventDecision incl excl fm)
      = (enumEntry df p false u).any (eventDecision incl excl fm) := by
  have h := congrArg (fun l => l.any (dataDecision incl excl fm))
    (subEvents_evData df fs p hwf u hat)
  simpa [any_comp_map, eventDecision, dataDecision, evData] using h

/-- Generic: a map without duplicates makes the mapped-to values identify the
elements. -/
theorem nodup_map_unique {α β : Type} {l : List α} {f : α → β}
    (h : (l.map f).Nodup) {a b : α} (ha : a ∈ l) (hb : b ∈ l)
    (hf : f a = f b) : a = b := by
  induction l with
  | nil => simp at ha
  | cons y ys ih =>
      simp only [List.map_cons, List.nodup_cons] at h
      obtain ⟨hy, hys⟩ := h
      rcases List.mem_cons.mp ha with ha1 | ha1
      · rcases List.mem_cons.mp hb with hb1 | hb1
        · rw [ha1, hb1]
        · exfalso
          apply hy
          rw [← ha1]
          exact List.mem_map.mpr ⟨b, hb1, hf.symm⟩
      · rcases List.mem_cons.mp hb with hb1 | hb1
        · exfalso
          apply hy
          rw [← hb1]
          exact List.mem_map.mpr ⟨a, ha1, hf⟩
        · exact ih hys ha1 hb1

theorem filter_eq_singleton {α : Type} {l : List α} (hnd : l.Nodup) {a : α}
    (ha : a ∈ l) (P : α → Bool) (hPa : P a = true)
    (hother : ∀ b ∈ l, b ≠ a → P b = false) : l.filter P = [a] := by
  induction l with
  | nil => simp at ha
  | cons y ys ih =>
      obtain ⟨hy, hys⟩ := List.nodup_cons.mp hnd
      rcases List.mem_cons.mp ha with h1 | ha1
      · rw [← h1] at hy ⊢
        rw [List.filter_cons, hPa]
        have hrest : ys.filter P = [] := by
          rw [List.filter_eq_nil_iff]
          intro b hb hPb
          have hba : b ≠ a := fun h => hy (h ▸ hb)
          rw [hother b (List.mem_cons_of_mem _ hb) hba] at hPb
          exact Bool.noConfusion hPb
        simp [hrest]
      · have hya : y ≠ a := fun h => hy (h ▸ ha1)
        rw [List.filter_cons, hother y (List.mem_cons_self _ _) hya]
        simp only [Bool.false_eq_true, if_false]
        exact ih hys ha1 (fun b hb => hother b (List.mem_cons_of_mem _ hb))

/-- A directory's creation event carries own size 0. -/
theorem enum_notfile_own_zero (df : Bool) :
    ∀ (N : Nat), ∀ (t : Entry), sizeOf t ≤ N → ∀ (rp : RPath) (il : Bool),
      ∀ e ∈ enumEntry df rp il t, e.isFile = false → e.ownSize = 0 := by
  intro N
  induction N using Nat.strong_induction_on with
  | _ N ih =>
      intro t ht rp il e he hnf
      cases t with
      | file n sz =>
          rw [enumEntry_file] at he
          simp only [List.mem_singleton] at he
          subst he
          exact absurd hnf (by simp)
      | dir n cs =>
          rw [enumEntry_dir] at he
          rcases List.mem_cons.mp he with rfl | he
          · rfl
          · rcases List.mem_flatMap.mp he with ⟨cb, hcb, hin⟩
            have hc : cb.1 ∈ cs := mem_sortChildren _ _ _ (mem_markLast _ _ hcb)
            have hsz : sizeOf cb.1 < sizeOf (Entry.dir n cs) := by
              have h1 := List.sizeOf_lt_of_mem hc
              simp only [Entry.dir.sizeOf_spec]
              omega
            exact ih (sizeOf cb.1) (lt_of_lt_of_le hsz ht) cb.1 (le_refl _)
              _ _ e hin hnf

/-- No yielded node lies strictly below a file's path. -/
theorem enum_file_no_strict_desc (df : Bool) :
    ∀ (N : Nat), ∀ (t : Entry), sizeOf t ≤ N → Entry.WF t = true →
      ∀ (rp : RPath) (il : Bool),
      ∀ e ∈ enumEntry df rp il t, e.isFile = true →
      ∀ e' ∈ enumEntry df rp il t, isAnc e.path e'.path = false := by
  intro N
  induction N using Nat.strong_induction_on with
  | _ N ih =>
      intro t ht hwf rp il e he hf e' he'
      cases t with
      | file n sz =>
          rw [enumEntry_file] at he he'
          simp only [List.mem_singleton] at he he'
          subst he; subst he'
          rw [isAnc_eq_false_iff]
          rintro ⟨_, hlen⟩
          exact absurd hlen (by simp)
      | dir n cs =>
          obtain ⟨hnames, hwfl⟩ := wf_dir hwf
          rw [enumEntry_dir] at he he'
          rcases List.mem_cons.mp he with rfl | he
          · exact absurd hf (by simp)
          · rcases List.mem_flatMap.mp he with ⟨cb, hcb, hin⟩
            have hext := enum_path_extends df (sizeOf cb.1) cb.1 (le_refl _)
              (rp ++ [cb.1.name]) cb.2 e hin
            rcases List.mem_cons.mp he' with rfl | he'
            · rw [isAnc_eq_false_iff]
              rintro ⟨hpre, hlen⟩
              have h1 : e.path.length ≤ rp.length := hpre.length_le
              have h2 := hext.length_le
              simp only [List.length_append, List.length_singleton] at h2
              omega
            · rcases List.mem_flatMap.mp he' with ⟨cb', hcb', hin'⟩
              by_cases hsame : cb = cb'
              · subst hsame
                have hc : cb.1 ∈ cs := mem_sortChildren _ _ _ (mem_markLast _ _ hcb)
                have hsz : sizeOf cb.1 < sizeOf (Entry.dir n cs) := by
                  have h1 := List.sizeOf_lt_of_mem hc
                  simp only [Entry.dir.sizeOf_spec]
                  omega
                exact ih (sizeOf cb.1) (lt_of_lt_of_le hsz ht) cb.1 (le_refl _)
                  (wfList_mem hwfl hc) _ _ e hin hf e' hin'
              · have hext' := enum_path_extends df (sizeOf cb'.1) cb'.1 (le_refl _)
                  (rp ++ [cb'.1.name]) cb'.2 e' hin'
                rw [isAnc_eq_false_iff]
                rintro ⟨hpre, _⟩
                have h1 : (rp ++ [cb.1.name]) <+: e'.path := hext.trans hpre
                have h2 : rp ++ [cb.1.name] = rp ++ [cb'.1.name] :=
                  prefix_same_length_eq h1 hext' (by simp)
                have hnn : cb.1.name = cb'.1.name := snoc_inj_name h2
                have hpw := markLast_names_pairwise df hnames
                have hcc : cb.1 = cb'.1 := by
                  have hc : cb.1 ∈ sortChildren df cs := by
                    have := mem_markLast _ _ hcb
                    exact this
                  have hc' : cb'.1 ∈ sortChildren df cs := mem_markLast _ _ hcb'
                  have hnds : ((sortChildren df cs).map Entry.name).Nodup :=
                    ((perm_sortChildren df cs).map Entry.name).nodup_iff.mpr hnames
                  exact nodup_map_unique hnds hc hc' hnn
                -- same first component and distinct pairs contradict the
                -- pairwise distinct names of the marked list
                have : cb.1.name ≠ cb'.1.name := by
                  have hpw2 := List.pairwise_iff_getElem.mp hpw
                  rcases List.mem_iff_getElem.mp hcb with ⟨i, hi, hieq⟩
                  rcases List.mem_iff_getElem.mp hcb' with ⟨j, hj, hjeq⟩
                  have hij : i ≠ j := by
                    intro h
                    subst h
                    apply hsame
                    rw [← hieq, ← hjeq]
                  rcases Nat.lt_or_ge i j with hlt | hge
                  · have := hpw2 i j hi hj hlt
                    rw [hieq, hjeq] at this
                    exact this
                  · have hlt : j < i := lt_of_le_of_ne hge (Ne.symm hij)
                    have := hpw2 j i hj hi hlt
                    rw [hieq, hjeq] at this
                    exact fun hq => this hq.symm
                exact this hnn

theorem events_nodup (df : Bool) (fs : Entry) (hwf : Entry.WF fs = true) :
    (enumEntry df [] false fs).Nodup :=
  (enum_paths_nodup df fs hwf [] false).of_map _

theorem subEvents_of_file (df : Bool) (fs : Entry) (hwf : Entry.WF fs = true)
    {q : RPath} {ev : Event} (hev : ev ∈ enumEntry df [] false fs)
    (hevq : ev.path = q) (hf : ev.isFile = true) :
    subEvents df fs q = [ev] := by
  apply filter_eq_singleton (events_nodup df fs hwf) hev
  · rw [hevq]
    exact List.isPrefixOf_iff_prefix.mpr (hevq ▸ List.prefix_refl _)
  · intro b hb hbne
    cases hpre : (q.isPrefixOf b.path : Bool) with
    | false => rfl
    | true =>
        exfalso
        have hqpre := List.isPrefixOf_iff_prefix.mp hpre
        by_cases heq : b.path = q
        · exact hbne (nodup_map_unique (enum_paths_nodup df fs hwf [] false)
            hb hev (heq.trans hevq.symm))
        · have hanc : isAnc ev.path b.path = true := by
            rw [isAnc_iff_ne, hevq]
            exact ⟨hqpre, fun h => heq h.symm⟩
          have := enum_file_no_strict_desc df (sizeOf fs) fs (le_refl _) hwf
            [] false ev hev hf b hb
          rw [this] at hanc
          exact Bool.noConfusion hanc

/-- A file node's finished record: size and file count are its own, and its
decision is exactly its construction-time filter decision. -/
theorem file_node_own (df : Bool) (fs : Entry) (incl excl : List RPath)
    (fm : Int) (hwf : Entry.WF fs = true) {q : RPath} {e2 : NodeData}
    (hmem : (q, e2) ∈ buildNodes fs incl excl fm df) (hf : e2.isFile = true) :
    ∃ ev, ev ∈ enumEntry df [] false fs ∧ ev.path = q ∧ ev.isFile = true ∧
      e2.size = ev.ownSize ∧ e2.n_files = 1 ∧
      e2.backup = eventDecision incl excl fm ev := by
  obtain ⟨ev, hevq, hevmem, hisf, _, hsz, hnf, hbk⟩ :=
    buildNodes_char df fs incl excl fm hwf q e2 hmem
  have hevf : ev.isFile = true := hisf ▸ hf
  have hsub : subEvents df fs q = [ev] := subEvents_of_file df fs hwf hevmem hevq hevf
  refine ⟨ev, hevmem, hevq, hevf, ?_, ?_, ?_⟩
  · rw [hsz, hsub]; simp
  · rw [hnf, hsub]; simp [hevf]
  · rw [hbk, hsub]; simp

/-- A node's `nodeOwnDecision` agrees with its creation event's decision. -/
theorem node_decision_eq_event (df : Bool) (fs : Entry) (incl excl : List RPath)
    (fm : Int) (hwf : Entry.WF fs = true) {q : RPath} {e2 : NodeData} {ev : Event}
    (hmem : (q, e2) ∈ buildNodes fs incl excl fm df)
    (hev : ev ∈ enumEntry df [] false fs) (hevq : ev.path = q) :
    nodeOwnDecision incl excl fm q e2 = eventDecision incl excl fm ev := by
  obtain ⟨ev', hevq', hevmem', hisf', _, _, _, _⟩ :=
    buildNodes_char df fs incl excl fm hwf q e2 hmem
  have hevev : ev' = ev := nodup_map_unique (enum_paths_nodup df fs hwf [] false)
    hevmem' hev (hevq'.trans hevq.symm)
  subst hevev
  cases hf : e2.isFile with
  | true =>
      obtain ⟨ev2, hev2, hev2q, hev2f, hsz, _, _⟩ :=
        file_node_own df fs incl excl fm hwf hmem hf
      have : ev2 = ev' := nodup_map_unique (enum_paths_nodup df fs hwf [] false)
        hev2 hevmem' (hev2q.trans hevq'.symm)
      subst this
      rw [nodeOwnDecision, eventDecision, hf, hevq', hsz]
      simp
  | false =>
      have hevf : ev'.isFile = false := hisf' ▸ hf
      have hown0 : ev'.ownSize = 0 :=
        enum_notfile_own_zero df (sizeOf fs) fs (le_refl _) [] false ev' hevmem' hevf
      rw [nodeOwnDecision, eventDecision, hf, hevq', hown0]
      simp

/-- Every creation event has a finished node at its path. -/
theorem node_of_event (df : Bool) (fs : Entry) (incl excl : List RPath)
    (fm : Int) {ev : Event} (hev : ev ∈ enumEntry df [] false fs) :
    ∃ dv, (ev.path, dv) ∈ buildNodes fs incl excl fm df := by
  have hkeys : (buildNodes fs incl excl fm df).map (·.1)
      = (enumEntry df [] false fs).map (·.path) := by
    rw [buildNodes, keys_buildFold]; rfl
  have hmemk : ev.path ∈ (buildNodes fs incl excl fm df).map (·.1) := by
    rw [hkeys]
    exact List.mem_map.mpr ⟨ev, hev, rfl⟩
  cases hl : lookupSt (buildNodes fs incl excl fm df) ev.path with
  | none => exact absurd hmemk ((lookupSt_eq_none_iff _ _).mp hl)
  | some dv => exact ⟨dv, mem_of_lookupSt hl⟩

/-- Master decision formula at the node level: a finished node's `backup` is
its own filter decision OR-ed with the own filter decisions of all its strict
descendants. -/
theorem node_backup_char (df : Bool) (fs : Entry) (incl excl : List RPath)
    (fm : Int) (hwf : Entry.WF fs = true) (p : RPath) (d : NodeData)
    (hmem : (p, d) ∈ buildNodes fs incl excl fm df) :
    d.backup = (nodeOwnDecision incl excl fm p d
      || (buildNodes fs incl excl fm df).any
          (fun x => isAnc p x.1 && nodeOwnDecision incl excl fm x.1 x.2)) := by
  obtain ⟨e, hep, hemem, hisf, _, _, _, hbk⟩ :=
    buildNodes_char df fs incl excl fm hwf p d hmem
  rw [hbk]
  rw [Bool.eq_iff_iff]
  simp only [List.any_eq_true, Bool.or_eq_true, Bool.and_eq_true]
  constructor
  · rintro ⟨ev, hevsub, hevdec⟩
    rw [subEvents, List.mem_filter] at hevsub
    obtain ⟨hevmem, hevpre⟩ := hevsub
    by_cases heq : ev.path = p
    · left
      rw [node_decision_eq_event df fs incl excl fm hwf hmem hevmem heq]
      exact hevdec
    · right
      obtain ⟨dv, hdv⟩ := node_of_event df fs incl excl fm hevmem
      refine ⟨(ev.path, dv), hdv, ?_, ?_⟩
      · rw [isAnc_iff_ne]
        exact ⟨List.isPrefixOf_iff_prefix.mp hevpre, fun h => heq h.symm⟩
      · rw [node_decision_eq_event df fs incl excl fm hwf hdv hevmem rfl]
        exact hevdec
  · rintro (hown | ⟨x, hx, hanc, hdec⟩)
    · refine ⟨e, ?_, ?_⟩
      · rw [subEvents, List.mem_filter]
        refine ⟨hemem, ?_⟩
        rw [hep]
        exact List.isPrefixOf_iff_prefix.mpr (List.prefix_refl p)
      · rw [← node_decision_eq_event df fs incl excl fm hwf hmem hemem hep]
        exact hown
    · have hxkeys : x.1 ∈ (enumEntry df [] false fs).map (·.path) := by
        have hkeys : (buildNodes fs incl excl fm df).map (·.1)
            = (enumEntry df [] false fs).map (·.path) := by
          rw [buildNodes, keys_buildFold]; rfl
        rw [← hkeys]
        exact List.mem_map.mpr ⟨x, hx, rfl⟩
      rcases List.mem_map.mp hxkeys with ⟨ev, hevmem, hevq⟩
      refine ⟨ev, ?_, ?_⟩
      · rw [subEvents, List.mem_filter]
        refine ⟨hevmem, ?_⟩
        rw [hevq]
        exact List.isPrefixOf_iff_prefix.mpr (isAnc_iff.mp hanc).1
      · have hx2 : (x.1, x.2) ∈ buildNodes fs incl excl fm df := hx
        rw [← node_decision_eq_event df fs incl excl fm hwf hx2 hevmem hevq]
        exact hdec

/-- If any strict descendant node's final decision is true, so is the
node's. -/
theorem node_backup_of_desc (df : Bool) (fs : Entry) (incl excl : List RPath)
    (fm : Int) (hwf : Entry.WF fs = true) (p : RPath) (d : NodeData)
    (hmem : (p, d) ∈ buildNodes fs incl excl fm df)
    (q : RPath) (e2 : NodeData)
    (hmem2 : (q, e2) ∈ buildNodes fs incl excl fm df)
    (hanc : isAnc p q = true) (hbk2 : e2.backup = true) : d.backup = true := by
  obtain ⟨e, hep, hemem, _, _, _, _, hbk⟩ :=
    buildNodes_char df fs incl excl fm hwf p d hmem
  obtain ⟨e', hep', hemem', _, _, _, _, hbk'⟩ :=
    buildNodes_char df fs incl excl fm hwf q e2 hmem2
  rw [hbk', List.any_eq_true] at hbk2
  obtain ⟨ev, hevsub, hevdec⟩ := hbk2
  rw [subEvents, List.mem_filter] at hevsub
  obtain ⟨hevmem, hevpre⟩ := hevsub
  rw [hbk, List.any_eq_true]
  refine ⟨ev, ?_, hevdec⟩
  rw [subEvents, List.mem_filter]
  refine ⟨hevmem, ?_⟩
  rw [List.isPrefixOf_iff_prefix] at hevpre ⊢
  exact ((isAnc_iff.mp hanc).1).trans hevpre

/-! ### Claim C1 -/

/-- Claim C1: for every tree produced by `BackupPath.make_tree`, once
construction has completed, the node at relative path `p` mirrors the
filesystem subtree there: its `size` is the sum of the own byte sizes of all
files in the subtree (directories contributing 0) and its `n_files` is the
number of files in the subtree; for a file node this specializes to its own
byte size and a count of 1, since `totalFileSize`/`countFiles` of a file are
its size and 1. -/
theorem C1_size_and_count_aggregate (df : Bool) (fs : Entry)
    (incl excl : List RPath) (fm : Int) (hwf : Entry.WF fs = true)
    (p : RPath) (d : NodeData)
    (hmem : (p, d) ∈ buildNodes fs incl excl fm df)
    (u : Entry) (hat : entryAt fs p = some u) :
    d.size = u.totalFileSize ∧ d.n_files = u.countFiles := by
  obtain ⟨e, hep, hemem, _, _, hsz, hnf, _⟩ :=
    buildNodes_char df fs incl excl fm hwf p d hmem
  constructor
  · rw [hsz]
    exact subEvents_sum_ownSize df fs p hwf u hat
  · rw [hnf]
    exact subEvents_count_isFile df fs p hwf u hat

/-- Witness for C1 on the concrete tree `fsA` at the directory `a`. -/
theorem C1_size_and_count_aggregate_witness :
    Entry.WF fsA = true ∧
    (["a"], (⟨2000060, 2, true, 1, false, false⟩ : NodeData))
        ∈ buildNodes fsA [] [] (-1) true ∧
    ((⟨2000060, 2, true, 1, false, false⟩ : NodeData).size
        = (Entry.dir "a" [.file "x" 60, .file "y" 2000000]).totalFileSize
      ∧ (⟨2000060, 2, true, 1, false, false⟩ : NodeData).n_files
        = (Entry.dir "a" [.file "x" 60, .file "y" 2000000]).countFiles) :=
  ⟨by decide, by decide,
    C1_size_and_count_aggregate true fsA [] [] (-1) (by decide) ["a"]
      ⟨2000060, 2, true, 1, false, false⟩ (by decide)
      (Entry.dir "a" [.file "x" 60, .file "y" 2000000]) rfl⟩

theorem ancChain_nil : ancChain [] = [[]] := rfl

theorem ancChain_step (p : RPath) (hp : p ≠ []) :
    ancChain p = p :: ancChain (parentPath p) := by
  have hlen : p.length = (p.length - 1) + 1 := by
    cases p with
    | nil => exact absurd rfl hp
    | cons f rest => simp
  rw [ancChain, List.range_succ, List.reverse_append]
  simp only [List.reverse_singleton, List.singleton_append, List.map_cons,
    List.take_length]
  congr 1
  rw [ancChain]
  have hplen : (parentPath p).length = p.length - 1 := by
    simp [parentPath]
  rw [hplen, ← hlen]
  apply List.map_congr_left
  intro k hk
  have hk' : k < p.length := by
    have := List.mem_range.mp (List.mem_reverse.mp hk)
    omega
  rw [parentPath, List.dropLast_eq_take, List.take_take]
  congr 1
  omega

theorem namefilter_spec_aux :
    ∀ (N : Nat) (p : RPath), p.length ≤ N → ∀ (incl excl : List RPath),
      make_namefilter incl excl p = namefilterSpec incl excl p := by
  intro N
  induction N with
  | zero =>
      intro p hlen incl excl
      have hp : p = [] := List.eq_nil_of_length_eq_zero (by omega)
      subst hp
      rw [make_namefilter_eq, namefilterSpec, ancChain_nil]
      by_cases hin : ([] : RPath) ∈ incl
      · simp [List.find?_cons, hin]
      · by_cases hex : ([] : RPath) ∈ excl <;> simp [List.find?_cons, hin, hex]
  | succ N ih =>
      intro p hlen incl excl
      by_cases hp : p = []
      · subst hp
        exact ih [] (by simp) incl excl ▸ ih [] (by simp) incl excl
      · rw [make_namefilter_eq, namefilterSpec, ancChain_step p hp,
          List.find?_cons]
        by_cases hin : p ∈ incl
        · simp [hin]
        · by_cases hex : p ∈ excl
          · simp [hin, hex]
          · simp only [hin, hex, decide_False, Bool.or_false, if_neg, hp]
            have hplen : (parentPath p).length ≤ N := by
              have : p.length ≤ N + 1 := hlen
              have h0 : p.length ≠ 0 := by simpa using hp
              simp only [parentPath, List.length_dropLast]
              omega
            rw [ih (parentPath p) hplen incl excl, namefilterSpec]
            simp

/-- Claim C2: the name filter built by `BackupPath.make_namefilter` returns
include if the node's path is explicitly included, else exclude if explicitly
excluded, else the parent's result, else (root with no rule) include — i.e.
the closest explicitly listed ancestor-or-self decides, include winning when
a path is listed in both sets, and the default is include. -/
theorem C2_namefilter_closest_rule (incl excl : List RPath) (p : RPath) :
    make_namefilter incl excl p = namefilterSpec incl excl p :=
  namefilter_spec_aux p.length p (le_refl _) incl excl

/-! ### Claim C3 -/

/-- Claim C3 (amended): upward OR-propagation holds — if any node strictly
below a directory has a true decision, the directory's decision is true — but
the converse direction claimed by the spec has to account for the
directory's own filter decision and those of its descendant directories:
the final decision is exactly the node's own filter decision OR-ed with the
own filter decisions of all strict descendants, so it can be true although
every file below is false. -/
theorem C3_or_propagation_characterized (df : Bool) (fs : Entry)
    (incl excl : List RPath) (fm : Int) (hwf : Entry.WF fs = true)
    (p : RPath) (d : NodeData)
    (hmem : (p, d) ∈ buildNodes fs incl excl fm df) :
    ((∃ x ∈ buildNodes fs incl excl fm df,
        isAnc p x.1 = true ∧ x.2.isFile = true ∧ x.2.backup = true) →
      d.backup = true)
    ∧ d.backup = (nodeOwnDecision incl excl fm p d
        || (buildNodes fs incl excl fm df).any
            (fun x => isAnc p x.1 && nodeOwnDecision incl excl fm x.1 x.2)) := by
  constructor
  · rintro ⟨x, hx, hanc, _, hbk⟩
    exact node_backup_of_desc df fs incl excl fm hwf p d hmem x.1 x.2 hx hanc hbk
  · exact node_backup_char df fs incl excl fm hwf p d hmem

/-- Witness for the amended C3 on `fsB` with the file excluded: the root's
decision is exactly its own default-include decision. -/
theorem C3_or_propagation_characterized_witness :
    Entry.WF fsB = true ∧
    ([], (⟨5, 1, true, 0, false, false⟩ : NodeData))
        ∈ buildNodes fsB [] [["a"]] (-1) true ∧
    (((∃ x ∈ buildNodes fsB [] [["a"]] (-1) true,
        isAnc [] x.1 = true ∧ x.2.isFile = true ∧ x.2.backup = true) →
      (⟨5, 1, true, 0, false, false⟩ : NodeData).backup = true)
    ∧ (⟨5, 1, true, 0, false, false⟩ : NodeData).backup
        = (nodeOwnDecision [] [["a"]] (-1) []
              ⟨5, 1, true, 0, false, false⟩
          || (buildNodes fsB [] [["a"]] (-1) true).any
              (fun x => isAnc [] x.1
                && nodeOwnDecision [] [["a"]] (-1) x.1 x.2))) :=
  ⟨by decide, by decide,
    C3_or_propagation_characterized true fsB [] [["a"]] (-1) (by decide) []
      ⟨5, 1, true, 0, false, false⟩ (by decide)⟩

/-- Counterexample to C3 as stated: in `fsB` with the only file explicitly
excluded, every leaf below the root is false, yet the root's decision is true
(its own default-include decision is OR-ed in), contradicting "if all leaves
under a directory are false, the directory's decision is false". -/
theorem C3_counterexample :
    ¬ (∀ (df : Bool) (fs : Entry) (incl excl : List RPath) (fm : Int),
        Entry.WF fs = true → ∀ (p : RPath) (d : NodeData),
        (p, d) ∈ buildNodes fs incl excl fm df → d.isFile = false →
        ((∃ x ∈ buildNodes fs incl excl fm df,
            isAnc p x.1 = true ∧ x.2.isFile = true ∧ x.2.backup = true) →
          d.backup = true)
        ∧ ((∀ x ∈ buildNodes fs incl excl fm df,
            isAnc p x.1 = true → x.2.isFile = true → x.2.backup = false) →
          d.backup = false)) := by
  intro h
  have h2 := (h true fsB [] [["a"]] (-1) (by decide) []
    ⟨5, 1, true, 0, false, false⟩ (by decide) (by decide)).2
  have h3 := h2 (by decide)
  exact absurd h3 (by decide)

/-! ### Claim C6 -/

/-- Claim C6: with a positive `filemax`, a file whose own size is at least
the ceiling has decision false regardless of the name filter, and a
directory is never excluded by the size filter itself — its decision is its
own name-filter verdict OR-ed with its strict descendants' own decisions. -/
theorem C6_sizefilter (df : Bool) (fs : Entry) (incl excl : List RPath)
    (fm : Int) (hfm : 0 < fm) (hwf : Entry.WF fs = true)
    (p : RPath) (d : NodeData)
    (hmem : (p, d) ∈ buildNodes fs incl excl fm df) :
    (d.isFile = true → fm ≤ (d.size : Int) → d.backup = false)
    ∧ (d.isFile = false → d.backup = (make_namefilter incl excl p
        || (buildNodes fs incl excl fm df).any
            (fun x => isAnc p x.1 && nodeOwnDecision incl excl fm x.1 x.2))) := by
  constructor
  · intro hf hsz
    obtain ⟨ev, _, _, _, hevsz, _, hbk⟩ :=
      file_node_own df fs incl excl fm hwf hmem hf
    rw [hbk, eventDecision, sizefilter, if_pos hfm]
    have : ¬ ((ev.ownSize : Int) < fm) := by
      rw [← hevsz]
      omega
    simp [this]
  · intro hf
    have hchar := node_backup_char df fs incl excl fm hwf p d hmem
    rw [hchar, nodeOwnDecision, hf]
    have hsz0 : sizefilter fm 0 = true := by
      rw [sizefilter, if_pos hfm]
      simp
      omega
    simp [hsz0]

/-! ### Claim C8 -/

/-- Claim C8: `BackupPathStructure.scan` is read-only with respect to the
tree: running the scan loop over `backuppaths` hands every node through
unchanged — the node list after the loop is exactly the node list before it,
every field included — and only produces the output rows. -/
theorem C8_scan_is_readonly (s : BPS) (display : Bool) :
    (scanExec s display).1 = s.nodes
    ∧ (scanExec s display).2 = scanRows s display := by
  suffices h : ∀ (l : List (RPath × NodeData)) (acc1 : BState)
      (acc2 : List (RPath × Bool)),
      (l.foldl (scanVisit s display) (acc1, acc2)).1 = acc1 ++ l
      ∧ (l.foldl (scanVisit s display) (acc1, acc2)).2
          = acc2 ++ l.filterMap
              (fun x => if scanKeep s display x.1 x.2
                then some (x.1, x.2.backup) else none) by
    have h2 := h s.nodes [] []
    simpa [scanExec, scanRows] using h2
  intro l
  induction l with
  | nil => intro acc1 acc2; simp
  | cons x xs ih =>
      intro acc1 acc2
      rw [List.foldl_cons]
      cases hk : scanKeep s display x.1 x.2 <;>
        simp [scanVisit, hk, ih, List.filterMap_cons]

/-! ### Claim C9 -/

/-- Claim C9: `_read_backup_conf` — and through it `from_backup_conf` and the
zip command — raises the error telling the caller to run `backupy build`
first exactly when no configuration file exists; with a missing file it never
returns a structure (no default decision set is fabricated), and with an
existing file that error is never raised. -/
theorem C9_missing_conf_error (fs : Entry)
    (file : Option (List (RPath × Bool))) :
    (from_backup_conf fs file = .error buildFirstError ↔ file = none)
    ∧ (cmd_zip fs file = .error buildFirstError ↔ file = none)
    ∧ (file = none → ∀ s, from_backup_conf fs file ≠ .ok s) := by
  cases file with
  | none =>
      refine ⟨by simp [from_backup_conf], ?_, ?_⟩
      · simp [cmd_zip, from_backup_conf]
      · intro _ s
        simp [from_backup_conf]
  | some rows =>
      have hne : "KeyError: '.'" ≠ buildFirstError := by decide
      refine ⟨?_, ?_, ?_⟩
      · rw [from_backup_conf]
        cases hroot : (lookupConf (readConf rows) []).isSome <;>
          simp [hroot, hne]
      · rw [cmd_zip, from_backup_conf]
        cases hroot : (lookupConf (readConf rows) []).isSome <;>
          simp [hroot, hne]
      · intro hcontra
        exact absurd hcontra (by simp)

/-! ### Characterizing `_read_backup_conf`'s nested record -/
theorem lookupConf_append (a b : ConfMap) (p : RPath) :
    lookupConf (a ++ b) p = (lookupConf a p).or (lookupConf b p) := by
  simp only [lookupConf, List.find?_append]
  cases List.find? (fun x => decide (x.1 = p)) a <;> simp

theorem lookupConf_single (p q : RPath) (b : Bool) :
    lookupConf [(q, b)] p = if q = p then some b else none := by
  by_cases h : q = p <;> simp [lookupConf, List.find?_cons, h]

theorem lookupConf_overwrite_ne (m : ConfMap) (b : Bool) (p : RPath)
    (hp : p ≠ []) :
    lookupConf (m.map (fun x => if x.1 = [] then ([], b) else x)) p
      = lookupConf m p := by
  induction m with
  | nil => rfl
  | cons y ys ih =>
      by_cases hynil : y.1 = []
      · have hnp : ¬ (([] : RPath) = p) := fun h => hp h.symm
        have hyp : ¬ (y.1 = p) := by rw [hynil]; exact fun h => hp h.symm
        simp only [List.map_cons, if_pos hynil]
        have h1 : lookupConf (([], b) :: ys.map
            (fun x => if x.1 = [] then ([], b) else x)) p
            = lookupConf (ys.map (fun x => if x.1 = [] then ([], b) else x)) p := by
          simp [lookupConf, List.find?_cons, hnp]
        have h2 : lookupConf (y :: ys) p = lookupConf ys p := by
          simp [lookupConf, List.find?_cons, hyp]
        rw [h1, h2, ih]
      · simp only [List.map_cons, if_neg hynil]
        by_cases hy : y.1 = p
        · simp [lookupConf, List.find?_cons, hy]
        · have h1 : lookupConf (y :: ys.map
              (fun x => if x.1 = [] then ([], b) else x)) p
              = lookupConf (ys.map (fun x => if x.1 = [] then ([], b) else x)) p := by
            simp [lookupConf, List.find?_cons, hy]
          have h2 : lookupConf (y :: ys) p = lookupConf ys p := by
            simp [lookupConf, List.find?_cons, hy]
          rw [h1, h2, ih]

theorem lookupConf_overwrite_nil (m : ConfMap) (b : Bool)
    (hroot : (lookupConf m []).isSome = true) :
    lookupConf (m.map (fun x => if x.1 = [] then ([], b) else x)) []
      = some b := by
  induction m with
  | nil => simp [lookupConf] at hroot
  | cons y ys ih =>
      by_cases hynil : y.1 = []
      · simp only [List.map_cons, if_pos hynil]
        simp [lookupConf, List.find?_cons]
      · simp only [List.map_cons, if_neg hynil]
        have hyne : ¬ (y.1 = ([] : RPath)) := hynil
        have h1 : lookupConf (y :: ys.map
            (fun x => if x.1 = [] then ([], b) else x)) []
            = lookupConf (ys.map (fun x => if x.1 = [] then ([], b) else x)) [] := by
          simp [lookupConf, List.find?_cons, hyne]
        have h2 : lookupConf (y :: ys) [] = lookupConf ys [] := by
          simp [lookupConf, List.find?_cons, hyne]
        rw [h2] at hroot
        rw [h1, ih hroot]

theorem lookupConf_setRootFlag_ne (m : ConfMap) (b : Bool) (p : RPath)
    (hp : p ≠ []) : lookupConf (setRootFlag m b) p = lookupConf m p := by
  rw [setRootFlag]
  cases hroot : (lookupConf m []).isSome
  · simp only [Bool.false_eq_true, if_false]
    rw [lookupConf_append, lookupConf_single]
    have : ¬ (([] : RPath) = p) := fun h => hp h.symm
    rw [if_neg this]
    cases lookupConf m p <;> rfl
  · simp only [if_true]
    exact lookupConf_overwrite_ne m b p hp

theorem lookupConf_setRootFlag_nil (m : ConfMap) (b : Bool) :
    lookupConf (setRootFlag m b) [] = some b := by
  rw [setRootFlag]
  cases hroot : (lookupConf m []).isSome
  · simp only [Bool.false_eq_true, if_false]
    rw [lookupConf_append, lookupConf_single, if_pos rfl]
    have hnone : lookupConf m [] = none := by
      cases h : lookupConf m [] with
      | none => rfl
      | some v => rw [h] at hroot; simp at hroot
    rw [hnone]
    rfl
  · simp only [if_true]
    exact lookupConf_overwrite_nil m b hroot

/-- One descent step does not change which strict extensions of the walk's
current level inside the row's path a level is. -/
theorem anc_step_cond (cur p : RPath) (f : String) (rest : List String)
    (hne : p ≠ cur ++ [f]) :
    (isAnc (cur ++ [f]) p && p.isPrefixOf ((cur ++ [f]) ++ rest))
      = (isAnc cur p && p.isPrefixOf (cur ++ (f :: rest))) := by
  have hlist : cur ++ (f :: rest) = (cur ++ [f]) ++ rest := by simp
  rw [hlist]
  cases hpre : (p.isPrefixOf ((cur ++ [f]) ++ rest) : Bool)
  · simp
  · simp only [Bool.and_true]
    have hp := List.isPrefixOf_iff_prefix.mp hpre
    cases h1 : isAnc (cur ++ [f]) p with
    | true =>
        obtain ⟨hpre1, hlen1⟩ := isAnc_iff.mp h1
        have h2 : isAnc cur p = true := by
          rw [isAnc_iff]
          refine ⟨(List.prefix_append cur [f]).trans hpre1, ?_⟩
          have := hpre1.length_le
          simp only [List.length_append, List.length_singleton] at this ⊢
          omega
        rw [h2]
    | false =>
        cases h2 : isAnc cur p with
        | false => rfl
        | true =>
            exfalso
            obtain ⟨hpre2, hlen2⟩ := isAnc_iff.mp h2
            have hbig : (cur ++ [f]) <+: ((cur ++ [f]) ++ rest) :=
              List.prefix_append _ _
            have hor := List.prefix_or_prefix_of_prefix hbig hp
            have hcurf : (cur ++ [f]) <+: p := by
              rcases hor with h | h
              · exact h
              · have hle := h.length_le
                simp only [List.length_append, List.length_singleton] at hle
                have : p = cur ++ [f] := h.eq_of_length (by
                  simp only [List.length_append, List.length_singleton]
                  omega)
                exact absurd this hne
            have hlen3 : (cur ++ [f]).length < p.length := by
              have hle := hcurf.length_le
              rcases lt_or_eq_of_le hle with h | h
              · exact h
              · exact absurd (hcurf.eq_of_length h).symm hne
            rw [← Bool.not_eq_true] at h1
            exact h1 (isAnc_iff.mpr ⟨hcurf, hlen3⟩)

/-- Effect of the descent loop on an arbitrary level: it creates (with the
row's flag) exactly the levels strictly below the starting level along the
row's path that did not exist yet. -/
theorem lookupConf_confWalk (b : Bool) :
    ∀ (parts : List String) (m : ConfMap) (cur p : RPath),
    lookupConf (confWalk b m cur parts) p
      = (lookupConf m p).or
          (if (isAnc cur p && p.isPrefixOf (cur ++ parts)) = true then some b
           else none) := by
  intro parts
  induction parts with
  | nil =>
      intro m cur p
      rw [confWalk]
      have hfalse : (isAnc cur p && p.isPrefixOf (cur ++ ([] : List String)))
          = false := by
        cases h1 : isAnc cur p with
        | false => rfl
        | true =>
            cases h2 : (p.isPrefixOf (cur ++ ([] : List String)) : Bool) with
            | false => rfl
            | true =>
                exfalso
                obtain ⟨_, hlen⟩ := isAnc_iff.mp h1
                have hle := (List.isPrefixOf_iff_prefix.mp h2).length_le
                simp only [List.append_nil] at hle
                omega
      rw [hfalse]
      simp only [Bool.false_eq_true, if_false]
      cases lookupConf m p <;> rfl
  | cons f rest ih =>
      intro m cur p
      rw [confWalk]
      by_cases hpres : (lookupConf m (cur ++ [f])).isSome = true
      · rw [if_pos hpres, ih]
        by_cases hpe : p = cur ++ [f]
        · subst hpe
          obtain ⟨v, hv⟩ := Option.isSome_iff_exists.mp hpres
          rw [hv]
          have hanc : isAnc (cur ++ [f]) (cur ++ [f]) = false := by
            rw [isAnc_eq_false_iff]
            rintro ⟨_, hlen⟩
            omega
          rw [hanc]
          rfl
        · rw [anc_step_cond cur p f rest hpe]
      · rw [if_neg hpres, ih]
        have hlk : lookupConf (m ++ [(cur ++ [f], b)]) p
            = (lookupConf m p).or
                (if cur ++ [f] = p then some b else none) := by
          rw [lookupConf_append, lookupConf_single]
        rw [hlk]
        by_cases hpe : p = cur ++ [f]
        · subst hpe
          have hmn : lookupConf m (cur ++ [f]) = none := by
            cases h : lookupConf m (cur ++ [f]) with
            | none => rfl
            | some v => rw [h] at hpres; simp at hpres
          rw [hmn, if_pos rfl]
          have hanc : isAnc (cur ++ [f]) (cur ++ [f]) = false := by
            rw [isAnc_eq_false_iff]
            rintro ⟨_, hlen⟩
            omega
          rw [hanc]
          have hcond : (isAnc cur (cur ++ [f])
              && (cur ++ [f]).isPrefixOf (cur ++ (f :: rest))) = true := by
            rw [Bool.and_eq_true]
            constructor
            · rw [isAnc_iff]
              refine ⟨List.prefix_append _ _, by simp⟩
            · rw [List.isPrefixOf_iff_prefix]
              have : cur ++ (f :: rest) = (cur ++ [f]) ++ rest := by simp
              rw [this]
              exact List.prefix_append _ _
          rw [hcond]
          rfl
        · rw [if_neg (fun h => hpe h.symm)]
          rw [anc_step_cond cur p f rest hpe]
          cases lookupConf m p <;> rfl

/-- Processing one row, seen from an arbitrary non-root level: the level
keeps its value, and otherwise receives the row's flag exactly when it lies
on the row's path (at any depth). -/
theorem lookupConf_readConfRow_ne (m : ConfMap) (r : RPath × Bool) (p : RPath)
    (hp : p ≠ []) :
    lookupConf (readConfRow m r) p
      = (lookupConf m p).or
          (if (p.isPrefixOf r.1 : Bool) = true then some r.2 else none) := by
  rw [readConfRow]
  have hanc : isAnc [] p = true := by
    rw [isAnc_iff]
    refine ⟨List.nil_prefix, ?_⟩
    cases p with
    | nil => exact absurd rfl hp
    | cons f rest => simp
  by_cases hr : r.1 = []
  · rw [if_pos hr, lookupConf_confWalk, lookupConf_setRootFlag_ne m r.2 p hp]
    congr 1
    rw [hanc, Bool.true_and]
    simp [hr]
  · rw [if_neg hr, lookupConf_confWalk]
    congr 1
    rw [hanc, Bool.true_and]
    simp

/-- Processing one row, seen from the root level: only a row whose path
resolves to the root touches it, and it overwrites. -/
theorem lookupConf_readConfRow_nil (m : ConfMap) (r : RPath × Bool) :
    lookupConf (readConfRow m r) []
      = if r.1 = [] then some r.2 else lookupConf m [] := by
  rw [readConfRow]
  have hanc : isAnc [] ([] : RPath) = false := by
    rw [isAnc_eq_false_iff]
    rintro ⟨_, hlen⟩
    simp at hlen
  by_cases hr : r.1 = []
  · rw [if_pos hr, if_pos hr, lookupConf_confWalk, hanc]
    simp only [Bool.false_and, Bool.false_eq_true, if_false]
    rw [lookupConf_setRootFlag_nil]
    rfl
  · rw [if_neg hr, if_neg hr, lookupConf_confWalk, hanc]
    simp only [Bool.false_and, Bool.false_eq_true, if_false]
    cases lookupConf m [] <;> rfl

/-- The whole record, seen from a non-root level: the first row whose path
passes through the level fixes its `"."` flag for good. -/
theorem lookupConf_readConf_ne (rows : List (RPath × Bool)) (p : RPath)
    (hp : p ≠ []) :
    lookupConf (readConf rows) p
      = (rows.find? (fun r => p.isPrefixOf r.1)).map (·.2) := by
  suffices h : ∀ (m : ConfMap),
      lookupConf (rows.foldl readConfRow m) p
        = (lookupConf m p).or ((rows.find? (fun r => p.isPrefixOf r.1)).map (·.2)) by
    have h2 := h []
    rw [readConf] at *
    rw [h2]
    rfl
  induction rows with
  | nil =>
      intro m
      simp only [List.foldl_nil, List.find?_nil, Option.map_none']
      cases lookupConf m p <;> rfl
  | cons r rest ih =>
      intro m
      rw [List.foldl_cons, ih, lookupConf_readConfRow_ne m r p hp,
        List.find?_cons]
      cases hpr : (p.isPrefixOf r.1 : Bool)
      · simp only [Bool.false_eq_true, if_false]
        cases lookupConf m p <;> rfl
      · simp only [if_true]
        cases lookupConf m p <;> rfl

/-- The whole record, seen from the root level: the last row that resolves to
the root wins. -/
theorem lookupConf_readConf_nil (rows : List (RPath × Bool)) :
    lookupConf (readConf rows) []
      = (rows.reverse.find? (fun r => decide (r.1 = []))).map (·.2) := by
  suffices h : ∀ (m : ConfMap),
      lookupConf (rows.foldl readConfRow m) []
        = ((rows.reverse.find? (fun r => decide (r.1 = []))).map (·.2)).or
            (lookupConf m []) by
    have h2 := h []
    rw [readConf, h2]
    have : lookupConf ([] : ConfMap) [] = none := rfl
    rw [this]
    cases (rows.reverse.find? (fun r => decide (r.1 = []))).map (·.2) <;> rfl
  induction rows with
  | nil =>
      intro m
      simp only [List.foldl_nil, List.reverse_nil, List.find?_nil,
        Option.map_none']
      rfl
  | cons r rest ih =>
      intro m
      rw [List.foldl_cons, ih, lookupConf_readConfRow_nil m r]
      rw [List.reverse_cons, List.find?_append]
      by_cases hr : r.1 = []
      · rw [if_pos hr]
        have hfind : List.find? (fun r => decide (r.1 = [])) [r] = some r := by
          simp [List.find?_cons, hr]
        rw [hfind]
        cases hrest : List.find? (fun r => decide (r.1 = [])) rest.reverse with
        | none => rfl
        | some v => rfl
      · rw [if_neg hr]
        have hfind : List.find? (fun r => decide (r.1 = [])) [r] = none := by
          simp [List.find?_cons, hr]
        rw [hfind]
        cases hrest : List.find? (fun r => decide (r.1 = [])) rest.reverse with
        | none => rfl
        | some v => rfl

/-! ### The reconciliation walk of `from_backup_conf` -/
theorem finalCur_append (m : ConfMap) :
    ∀ (a b : List String) (cur : RPath),
      finalCur m cur (a ++ b) = finalCur m (finalCur m cur a) b := by
  intro a
  induction a with
  | nil => intro b cur; rfl
  | cons f rest ih =>
      intro b cur
      rw [List.cons_append, finalCur, finalCur]
      exact ih b _

theorem finalCur_all_present (m : ConfMap) :
    ∀ (parts : List String) (cur : RPath),
      (∀ k, 1 ≤ k → k ≤ parts.length →
        (lookupConf m (cur ++ parts.take k)).isSome = true) →
      finalCur m cur parts = cur ++ parts := by
  intro parts
  induction parts with
  | nil => intro cur _; simp [finalCur]
  | cons f rest ih =>
      intro cur h
      have h1 : (lookupConf m (cur ++ [f])).isSome = true := by
        have := h 1 (by omega) (by simp)
        simpa using this
      rw [finalCur, if_pos h1]
      have h2 := ih (cur ++ [f]) (fun k hk1 hk2 => by
        have := h (k + 1) (by omega) (by simp; omega)
        have heq : cur ++ (f :: rest).take (k + 1) = (cur ++ [f]) ++ rest.take k := by
          simp [List.take_succ_cons]
        rw [heq] at this
        exact this)
      rw [h2]
      simp

theorem conf_prefix_closed (rows : List (RPath × Bool)) {p p' : RPath}
    (hp' : p' ≠ []) (hpre : p' <+: p)
    (hs : (lookupConf (readConf rows) p).isSome = true) :
    (lookupConf (readConf rows) p').isSome = true := by
  by_cases hp : p = []
  · subst hp
    exact absurd (List.prefix_nil.mp hpre) hp'
  · rw [lookupConf_readConf_ne rows p hp] at hs
    rw [lookupConf_readConf_ne rows p' hp']
    cases hfind : rows.find? (fun r => p.isPrefixOf r.1) with
    | none => rw [hfind] at hs; simp at hs
    | some r =>
        have hrmem := List.mem_of_find?_eq_some hfind
        have hrpre := List.find?_some hfind
        have hppre : p' <+: r.1 :=
          hpre.trans (List.isPrefixOf_iff_prefix.mp hrpre)
        cases hfind' : rows.find? (fun r => p'.isPrefixOf r.1) with
        | none =>
            rw [List.find?_eq_none] at hfind'
            exact absurd (List.isPrefixOf_iff_prefix.mpr hppre)
              (by simpa using hfind' r hrmem)
        | some r' => simp [hfind']

/-! ### Claim C10 -/

/-- Claim C10 (amended): in the nested mapping built by
`_read_backup_conf`, every non-root level's own decision is fixed by the
first row whose path passes through that level and is never overwritten by
later rows (in particular, a level first created by a deeper row keeps the
deeper row's flag, and a duplicate later row loses).  The root level is the
exception the original claim misses: `result["."] = backup` is a plain
assignment, so the LAST row resolving to the root wins there. -/
theorem C10_level_decision (rows : List (RPath × Bool)) (p : RPath) :
    (p ≠ [] → lookupConf (readConf rows) p
        = (rows.find? (fun r => p.isPrefixOf r.1)).map (·.2))
    ∧ lookupConf (readConf rows) []
        = (rows.reverse.find? (fun r => decide (r.1 = []))).map (·.2) :=
  ⟨fun hp => lookupConf_readConf_ne rows p hp, lookupConf_readConf_nil rows⟩

/-- Witness for the amended C10: with duplicate rows for `a` and for the
root, level `a` keeps the first flag while the root takes the last. -/
theorem C10_level_decision_witness :
    ((["a"] : RPath) ≠ []
      ∧ lookupConf (readConf [([("a" : String)], true), (["a"], false),
          ([], true), ([], false)]) ["a"]
        = (([([("a" : String)], true), (["a"], false), ([], true),
            ([], false)].find?
              (fun r => (["a"] : RPath).isPrefixOf r.1)).map (·.2)))
    ∧ lookupConf (readConf [([("a" : String)], true), (["a"], false),
          ([], true), ([], false)]) []
        = (([([("a" : String)], true), (["a"], false), ([], true),
            ([], false)].reverse.find? (fun r => decide (r.1 = []))).map (·.2)) :=
  ⟨⟨by decide,
    (C10_level_decision [(["a"], true), (["a"], false), ([], true),
      ([], false)] ["a"]).1 (by decide)⟩,
    (C10_level_decision [(["a"], true), (["a"], false), ([], true),
      ([], false)] ["a"]).2⟩

/-- Counterexample to C10 as stated: with two rows resolving to the root,
the stored root decision is the later row's flag, not the earlier one's. -/
theorem C10_counterexample :
    ¬ (∀ (rows : List (RPath × Bool)) (p : RPath),
        lookupConf (readConf rows) p
          = (rows.find? (fun r =>
              if p = [] then decide (r.1 = []) else p.isPrefixOf r.1)).map (·.2)) := by
  intro h
  have h2 := h [([], true), ([], false)] []
  exact absurd h2 (by decide)

/-! ### Claim C5 -/

/-- Claim C5 (amended): when only the last segment of a fresh node's path is
missing from the stored mapping — in particular for a file created after the
configuration was written whose parent directory's level is recorded — the
reconciled decision is the parent level's recorded decision.  (For paths
missing at an earlier level the walk keeps matching later segments at the
stuck level, so it does not always yield the nearest recorded ancestor; see
the counterexample.) -/
theorem C5_new_file_inherits_parent (fs : Entry) (rows : List (RPath × Bool))
    (q : RPath) (f : String)
    (hroot : (lookupConf (readConf rows) []).isSome = true)
    (hq : (lookupConf (readConf rows) q).isSome = true)
    (hmem : (q ++ [f]) ∈ (buildNodes fs [] [] (-1) true).map (·.1))
    (habs : lookupConf (readConf rows) (q ++ [f]) = none) :
    restoredBackup fs rows (q ++ [f]) = lookupConf (readConf rows) q := by
  have hnodes : (mkBPS fs [] [] 0 (-1) (-1) true).nodes
      = buildNodes fs [] [] (-1) true := rfl
  have hfc : finalCur (readConf rows) [] (q ++ [f]) = q := by
    rw [finalCur_append]
    have hq2 : finalCur (readConf rows) [] q = [] ++ q := by
      apply finalCur_all_present
      intro k hk1 hk2
      have hqpre : ([] ++ q.take k) ≠ [] := by
        simp only [List.nil_append]
        intro hcontra
        have hlen := congrArg List.length hcontra
        simp only [List.length_take] at hlen
        simp only [List.length_nil] at hlen
        omega
      apply conf_prefix_closed rows hqpre _ hq
      simp only [List.nil_append]
      exact List.take_prefix _ _
    rw [hq2]
    simp only [List.nil_append]
    rw [finalCur, habs]
    simp only [Option.isSome_none, Bool.false_eq_true, if_false]
    rw [finalCur]
  rw [restoredBackup, from_backup_conf, if_pos hroot]
  simp only []
  rw [lookupSt_map_val (mkBPS fs [] [] 0 (-1) (-1) true).nodes
    (fun p0 d => { d with
      backup := (reconcileDecision (readConf rows) p0).getD false })]
  cases hlq : lookupSt (mkBPS fs [] [] 0 (-1) (-1) true).nodes (q ++ [f]) with
  | none =>
      exfalso
      rw [hnodes] at hlq
      exact absurd hmem ((lookupSt_eq_none_iff _ _).mp hlq)
  | some d0 =>
      simp only [Option.map_some']
      rw [reconcileDecision, if_pos hroot, hfc]
      obtain ⟨b, hb⟩ := Option.isSome_iff_exists.mp hq
      rw [hb]
      rfl

/-- Witness for the amended C5: a file `d/new` created after the record was
written inherits directory `d`'s recorded decision. -/
theorem C5_new_file_inherits_parent_witness :
    (lookupConf (readConf [([], false), ([("d" : String)], true)]) []).isSome
        = true
    ∧ (lookupConf (readConf [([], false), ([("d" : String)], true)])
        ["d"]).isSome = true
    ∧ (["d", "new"] : RPath)
        ∈ (buildNodes (.dir "" [.dir "d" [.file "new" 7], .file "top" 9])
            [] [] (-1) true).map (·.1)
    ∧ lookupConf (readConf [([], false), ([("d" : String)], true)])
        ["d", "new"] = none
    ∧ restoredBackup (.dir "" [.dir "d" [.file "new" 7], .file "top" 9])
        [([], false), ([("d" : String)], true)] (["d"] ++ ["new"])
      = lookupConf (readConf [([], false), ([("d" : String)], true)]) ["d"] :=
  ⟨by decide, by decide, by decide, by decide,
    C5_new_file_inherits_parent
      (.dir "" [.dir "d" [.file "new" 7], .file "top" 9])
      [([], false), (["d"], true)] ["d"] "new"
      (by decide) (by decide) (by decide) (by decide)⟩

/-- Counterexample to C5 as stated: with stored levels `{. : true, b : ...}`
and fresh node `a/b`, the level `a` is absent, but instead of falling back to
the nearest recorded ancestor (the root, `true`) the walk keeps matching the
remaining segment `b` at the stuck root level and returns `b`'s recorded
decision `false`. -/
theorem C5_counterexample :
    ¬ (∀ (fs : Entry) (rows : List (RPath × Bool)) (p : RPath),
        Entry.WF fs = true →
        (lookupConf (readConf rows) []).isSome = true →
        p ∈ (buildNodes fs [] [] (-1) true).map (·.1) →
        lookupConf (readConf rows) p = none →
        restoredBackup fs rows p = nearestAncDec (readConf rows) p) := by
  intro h
  have h2 := h (.dir "" [.dir "a" [.file "b" 5], .file "b" 7])
    [([], true), ([("b" : String)], false)] ["a", "b"]
    (by decide) (by decide) (by decide) (by decide)
  exact absurd h2 (by decide)

/-! ### Claim C4 -/
theorem buildNodes_keys (df : Bool) (fs : Entry) (incl excl : List RPath)
    (fm : Int) :
    (buildNodes fs incl excl fm df).map (·.1)
      = (enumEntry df [] false fs).map (·.path) := by
  have h : buildNodes fs incl excl fm df
      = buildFold incl excl fm [] (enumEntry df [] false fs) := rfl
  rw [h, keys_buildFold]
  rfl

theorem buildNodes_root_depth (df : Bool) (fs : Entry)
    (incl excl : List RPath) (fm : Int) (hwf : Entry.WF fs = true)
    {droot : NodeData}
    (hmem : ([], droot) ∈ buildNodes fs incl excl fm df) :
    droot.depth = 0 := by
  obtain ⟨tl, htl⟩ := enum_head df [] false fs
  have hnd : ((buildNodes fs incl excl fm df).map (·.1)).Nodup := by
    rw [buildNodes_keys]
    exact enum_paths_nodup df fs hwf [] false
  have hlook : lookupSt (buildNodes fs incl excl fm df) [] = some droot :=
    lookupSt_of_mem_nodup hnd hmem
  have hcreated := lookupSt_buildFold_of_created incl excl fm
    ([] : List Event) tl ⟨[], fs.ownSize, fs.isFile, false⟩
    (show lookupSt ([] : BState) [] = none from rfl)
    (by intro ev hev; simp at hev) rfl
  simp only [List.nil_append] at hcreated
  have hbn : buildNodes fs incl excl fm df
      = buildFold incl excl fm []
          (⟨[], fs.ownSize, fs.isFile, false⟩ :: tl) := by
    have h : buildNodes fs incl excl fm df
        = buildFold incl excl fm [] (enumEntry df [] false fs) := rfl
    rw [h, htl]
  rw [hbn, hcreated] at hlook
  injection hlook with hd
  rw [← hd]
  rfl

theorem filterMap_if_sublist {α β : Type} (P : α → Bool) (g : α → β)
    (l : List α) :
    (l.filterMap (fun x => if P x then some (g x) else none)).Sublist
      (l.map g) := by
  induction l with
  | nil => simp
  | cons x xs ih =>
      rw [List.filterMap_cons, List.map_cons]
      cases hP : P x
      · simp only [Bool.false_eq_true, if_false]
        exact ih.cons _
      · simp only [if_true]
        exact ih.cons₂ _

theorem find?_eq_some_of_unique {α : Type} {l : List α} {P : α → Bool} {a : α}
    (ha : a ∈ l) (hPa : P a = true)
    (huniq : ∀ x ∈ l, P x = true → x = a) : l.find? P = some a := by
  induction l with
  | nil => simp at ha
  | cons y ys ih =>
      rw [List.find?_cons]
      cases hPy : P y
      · have hya : a ≠ y := by
          intro h
          rw [← h, hPa] at hPy
          exact Bool.noConfusion hPy
        have ha' : a ∈ ys := by
          rcases List.mem_cons.mp ha with h | h
          · exact absurd h hya
          · exact h
        exact ih ha' (fun x hx => huniq x (List.mem_cons_of_mem _ hx))
      · rw [huniq y (List.mem_cons_self _ _) hPy]

/-- Claim C4 (amended): the decisions round-trip for every node that is
actually written to the configuration record.  Writing the record with
`make_backup_conf` and rebuilding with `from_backup_conf` restores, at every
path that received a row, exactly the decision originally computed for that
node.  (A node whose row was hidden — below the display threshold — instead
receives the fall-through decision; see the counterexample.) -/
theorem C4_roundtrip_written (fs : Entry) (incl excl : List RPath)
    (sh fm mdd : Int) (hwf : Entry.WF fs = true) (p : RPath)
    (hrow : p ∈ (make_backup_conf (mkBPS fs incl excl sh fm mdd true)).map (·.1)) :
    restoredBackup fs (make_backup_conf (mkBPS fs incl excl sh fm mdd true)) p
      = (lookupSt (mkBPS fs incl excl sh fm mdd true).nodes p).map
          (·.backup) := by
  classical
  set s := mkBPS fs incl excl sh fm mdd true with hs
  set rows := make_backup_conf s with hrows
  set m := readConf rows with hm
  have hnodes : s.nodes = buildNodes fs incl excl fm true := rfl
  have hkeysnd : (s.nodes.map (·.1)).Nodup := by
    rw [hnodes, buildNodes_keys]
    exact enum_paths_nodup true fs hwf [] false
  -- rows are an order-preserving selection of the (path, backup) pairs
  have hsub : rows.Sublist (s.nodes.map (fun x => (x.1, x.2.backup))) := by
    rw [hrows, make_backup_conf, scanRows]
    exact filterMap_if_sublist (fun x => scanKeep s false x.1 x.2)
      (fun x => (x.1, x.2.backup)) s.nodes
  have hrowkeys : (rows.map (·.1)).Sublist (s.nodes.map (·.1)) := by
    have h1 := hsub.map (·.1)
    rw [List.map_map] at h1
    exact h1
  have hrowsnd : (rows.map (·.1)).Nodup := hkeysnd.sublist hrowkeys
  have hrowspw : (rows.map (·.1)).Pairwise (fun q q' => ¬ q' <+: q) := by
    have hev := enum_no_later_ancestor true (sizeOf fs) fs (le_refl _) hwf [] false
    have hkeyspw : ((enumEntry true [] false fs).map (·.path)).Pairwise
        (fun q q' => ¬ q' <+: q) := List.pairwise_map.mpr hev
    have : (s.nodes.map (·.1)).Pairwise (fun q q' => ¬ q' <+: q) := by
      rw [hnodes, buildNodes_keys]
      exact hkeyspw
    exact this.sublist hrowkeys
  -- membership of a row yields the underlying node
  have hrowmem : ∀ {q : RPath} {b : Bool}, (q, b) ∈ rows →
      ∃ dq, (q, dq) ∈ s.nodes ∧ b = dq.backup
        ∧ scanKeep s false q dq = true := by
    intro q b hqb
    rw [hrows, make_backup_conf, scanRows] at hqb
    rcases List.mem_filterMap.mp hqb with ⟨x, hx, hfx⟩
    by_cases hkeep : scanKeep s false x.1 x.2 = true
    · rw [if_pos hkeep] at hfx
      injection hfx with hfx
      have h1 : x.1 = q := congrArg Prod.fst hfx
      have h2 : x.2.backup = b := congrArg Prod.snd hfx
      refine ⟨x.2, ?_, h2.symm, ?_⟩
      · rw [← h1]; exact hx
      · rw [← h1]; exact hkeep
    · rw [if_neg hkeep] at hfx
      exact absurd hfx (by simp)
  -- the root node and its row
  obtain ⟨tl, htl⟩ := enum_head true [] false fs
  have hrootkey : ([] : RPath) ∈ s.nodes.map (·.1) := by
    rw [hnodes, buildNodes_keys, htl]
    simp
  obtain ⟨x0, hx0mem, hx0key⟩ := List.mem_map.mp hrootkey
  obtain ⟨droot, hdroot⟩ : ∃ droot, ([], droot) ∈ s.nodes := by
    refine ⟨x0.2, ?_⟩
    have : x0 = ([], x0.2) := by
      rw [← hx0key]
    rw [← this]
    exact hx0mem
  have hdrootdepth : droot.depth = 0 :=
    buildNodes_root_depth true fs incl excl fm hwf hdroot
  have hrootkeep : scanKeep s false [] droot = true := by
    rw [scanKeep]
    have hskip : scanSkip s false droot = false := by
      rw [scanSkip, hdrootdepth]
      have h1 : (decide ((((0 : Nat) : Int)) > s.max_depth_display)
          && decide (s.max_depth_display > -1)) = false := by
        cases h2 : (decide ((((0 : Nat) : Int)) > s.max_depth_display)) with
        | false => rfl
        | true =>
            cases h3 : (decide (s.max_depth_display > -1)) with
            | false => rfl
            | true =>
                exfalso
                simp only [decide_eq_true_eq] at h2 h3
                omega
      simp only [Bool.false_and, Bool.or_false]
      exact h1
    rw [hskip]
    simp
  have hrootrow : (([] : RPath), droot.backup) ∈ rows := by
    rw [hrows, make_backup_conf, scanRows]
    apply List.mem_filterMap.mpr
    exact ⟨([], droot), hdroot, by rw [if_pos hrootkeep]⟩
  -- the record's root entry is the root's decision
  have hrootconf : lookupConf m [] = some droot.backup := by
    rw [hm, lookupConf_readConf_nil]
    have huniq : ∀ x ∈ rows.reverse, (decide (x.1 = []) : Bool) = true →
        x = ([], droot.backup) := by
      intro x hx hP
      simp only [decide_eq_true_eq] at hP
      have hx' := List.mem_reverse.mp hx
      have : x = (x.1, x.2) := rfl
      have hxpair : (x.1, x.2) ∈ rows := this ▸ hx'
      rw [hP] at hxpair
      obtain ⟨dx, hdxmem, hdxb, _⟩ := hrowmem hxpair
      have hpairx : (([], dx) : RPath × NodeData) = ([], droot) :=
        nodup_map_unique hkeysnd hdxmem hdroot rfl
      have hdx : dx = droot := congrArg Prod.snd hpairx
      cases x with
      | mk x1 x2 =>
          simp only [Prod.mk.injEq]
          constructor
          · exact hP
          · exact hdxb.trans (congrArg NodeData.backup hdx)
    rw [find?_eq_some_of_unique (List.mem_reverse.mpr hrootrow)
      (by simp) huniq]
    rfl
  have hrootsome : (lookupConf m []).isSome = true := by
    rw [hrootconf]; rfl
  -- the row for p itself
  obtain ⟨bp, hbp⟩ : ∃ b, (p, b) ∈ rows := by
    rcases List.mem_map.mp hrow with ⟨r, hr, hrkey⟩
    exact ⟨r.2, by rw [← hrkey]; exact (show (r.1, r.2) ∈ rows from hr)⟩
  obtain ⟨dp, hdpmem, hdpb, _⟩ := hrowmem hbp
  -- the reconciled decision at p is exactly dp.backup
  have hreconcile : reconcileDecision m p = some dp.backup := by
    by_cases hpnil : p = []
    · subst hpnil
      rw [reconcileDecision, if_pos hrootsome]
      have : finalCur m [] [] = [] := rfl
      rw [this, hrootconf]
      have hpairp : (([], dp) : RPath × NodeData) = ([], droot) :=
        nodup_map_unique hkeysnd hdpmem hdroot rfl
      have hdp : dp = droot := congrArg Prod.snd hpairp
      rw [hdp]
    · -- every ancestor level of p exists in the record
      have hpconf : lookupConf m p = some dp.backup := by
        rw [hm, lookupConf_readConf_ne rows p hpnil]
        rcases List.append_of_mem hbp with ⟨l₁, l₂, hsplit⟩
        have hl₁ : ∀ x ∈ l₁, ((p.isPrefixOf x.1 : Bool)) = false := by
          intro x hx
          have hpw2 : (rows.map (·.1)).Pairwise (fun q q' => ¬ q' <+: q) :=
            hrowspw
          rw [hsplit] at hpw2
          have hmp : (l₁.map (·.1) ++ (p, bp).1 :: l₂.map (·.1)).Pairwise
              (fun q q' => ¬ q' <+: q) := by
            simpa using hpw2
          rcases List.pairwise_append.mp hmp with ⟨_, _, hcross⟩
          have hnpre := hcross x.1 (List.mem_map.mpr ⟨x, hx, rfl⟩) p
            (List.mem_cons_self _ _)
          cases hb2 : (p.isPrefixOf x.1 : Bool)
          · rfl
          · exact absurd (List.isPrefixOf_iff_prefix.mp hb2) hnpre
        rw [hsplit, List.find?_append]
        have h1 : l₁.find? (fun r => p.isPrefixOf r.1) = none :=
          List.find?_eq_none.mpr (fun x hx => by
            rw [hl₁ x hx]; exact Bool.noConfusion)
        have h2 : ((p.isPrefixOf (p, bp).1 : Bool)) = true :=
          List.isPrefixOf_iff_prefix.mpr (List.prefix_refl p)
        rw [h1, List.find?_cons, h2]
        show some bp = some dp.backup
        rw [hdpb]
      rw [reconcileDecision, if_pos hrootsome]
      have hfc : finalCur m [] p = p := by
        have hallpre : ∀ k, 1 ≤ k → k ≤ p.length →
            (lookupConf m ([] ++ p.take k)).isSome = true := by
          intro k hk1 hk2
          simp only [List.nil_append]
          refine conf_prefix_closed rows ?_ (List.take_prefix _ _) ?_
          · intro hcontra
            have := congrArg List.length hcontra
            simp only [List.length_take, List.length_nil] at this
            omega
          · rw [← hm, hpconf]; rfl
        have := finalCur_all_present m p [] hallpre
        simpa using this
      rw [hfc, hpconf]
  -- assemble
  rw [restoredBackup, from_backup_conf, if_pos (by rw [← hm]; exact hrootsome)]
  simp only []
  rw [lookupSt_map_val (mkBPS fs [] [] 0 (-1) (-1) true).nodes
    (fun p0 d => { d with
      backup := (reconcileDecision (readConf rows) p0).getD false })]
  have hpkeys0 : p ∈ (mkBPS fs [] [] 0 (-1) (-1) true).nodes.map (·.1) := by
    have h1 : (mkBPS fs [] [] 0 (-1) (-1) true).nodes
        = buildNodes fs [] [] (-1) true := rfl
    rw [h1, buildNodes_keys]
    have h2 : p ∈ s.nodes.map (·.1) :=
      List.mem_map.mpr ⟨(p, dp), hdpmem, rfl⟩
    rw [hnodes, buildNodes_keys] at h2
    exact h2
  cases hlq : lookupSt (mkBPS fs [] [] 0 (-1) (-1) true).nodes p with
  | none => exact absurd hpkeys0 ((lookupSt_eq_none_iff _ _).mp hlq)
  | some d0 =>
      simp only [Option.map_some']
      rw [← hm, hreconcile]
      rw [lookupSt_of_mem_nodup hkeysnd hdpmem]
      rfl

/-- Witness for the amended C4 on `fsA`: the written row for directory `a`
restores its original decision. -/
theorem C4_roundtrip_written_witness :
    Entry.WF fsA = true ∧
    (["a"] : RPath)
        ∈ (make_backup_conf (mkBPS fsA [] [] 1000000 (-1) (-1) true)).map (·.1) ∧
    restoredBackup fsA
        (make_backup_conf (mkBPS fsA [] [] 1000000 (-1) (-1) true)) ["a"]
      = (lookupSt (mkBPS fsA [] [] 1000000 (-1) (-1) true).nodes ["a"]).map
          (·.backup) :=
  ⟨by decide, by decide,
    C4_roundtrip_written fsA [] [] 1000000 (-1) (-1) (by decide) ["a"]
      (by decide)⟩

/-- Counterexample to C4 as stated: with `show = 1 MB` and `filemax = 50`,
the 60-byte file `a` is excluded from backup (it exceeds the ceiling) but too
small to be written to the configuration record; after reconciling, it falls
back to the root's stored decision `true`, so its decision is not the
originally computed `false`. -/
theorem C4_counterexample :
    ¬ (∀ (fs : Entry) (incl excl : List RPath) (sh fm mdd : Int),
        Entry.WF fs = true →
        ∀ (p : RPath),
        p ∈ (mkBPS fs incl excl sh fm mdd true).nodes.map (·.1) →
        restoredBackup fs
            (make_backup_conf (mkBPS fs incl excl sh fm mdd true)) p
          = (lookupSt (mkBPS fs incl excl sh fm mdd true).nodes p).map
              (·.backup)) := by
  intro h
  have h2 := h (.dir "" [.file "a" 60, .file "b" 2000000]) [] []
    1000000 50 (-1) (by decide) ["a"] (by decide)
  exact absurd h2 (by decide)

/-- Witness for C6 on `fsC` with `filemax = 50`: the 100-byte file is
excluded, and the root keeps its name-filter verdict OR descendants. -/
theorem C6_sizefilter_witness :
    (0 : Int) < 50 ∧ Entry.WF fsC = true ∧
    (["big"], (⟨100, 1, false, 1, false, true⟩ : NodeData))
        ∈ buildNodes fsC [] [] 50 true ∧
    (((⟨100, 1, false, 1, false, true⟩ : NodeData).isFile = true →
        (50 : Int) ≤ ((⟨100, 1, false, 1, false, true⟩ : NodeData).size : Int) →
        (⟨100, 1, false, 1, false, true⟩ : NodeData).backup = false)
      ∧ ((⟨100, 1, false, 1, false, true⟩ : NodeData).isFile = false →
        (⟨100, 1, false, 1, false, true⟩ : NodeData).backup
          = (make_namefilter [] [] ["big"]
            || (buildNodes fsC [] [] 50 true).any
                (fun x => isAnc ["big"] x.1
                  && nodeOwnDecision [] [] 50 x.1 x.2)))) :=
  ⟨by decide, by decide, by decide,
    C6_sizefilter true fsC [] [] 50 (by decide) (by decide) ["big"]
      ⟨100, 1, false, 1, false, true⟩ (by decide)⟩

theorem chain_of_chainB {α : Type} (r : α → α → Bool) :
    ∀ l : List α, chainB r l = true → l.Chain' (fun a b => r a b = true)
  | [], _ => List.chain'_nil
  | [_], _ => List.chain'_singleton _
  | a :: b :: l, h => by
      rw [chainB, Bool.and_eq_true] at h
      rw [List.chain'_cons]
      exact ⟨h.1, chain_of_chainB r (b :: l) h.2⟩

theorem digitChar_nine (n : Nat) : digitChar (n + 9) = '9' := rfl

theorem digitChar_ne_z (n : Nat) : digitChar n ≠ 'z' := by
  match n with
  | 0 => decide
  | 1 => decide
  | 2 => decide
  | 3 => decide
  | 4 => decide
  | 5 => decide
  | 6 => decide
  | 7 => decide
  | 8 => decide
  | n + 9 => rw [digitChar_nine]; decide

theorem bigName_ne_zzzz (i : Nat) : bigName i ≠ "zzzz" := by
  intro h
  have h3 := congrArg String.data h
  rw [bigName] at h3
  have h2 : [digitChar (i / 1000), digitChar (i / 100 % 10),
      digitChar (i / 10 % 10), digitChar (i % 10)]
      = ['z', 'z', 'z', 'z'] := h3
  injection h2 with hz _
  exact digitChar_ne_z _ hz

theorem sortBy_of_chain {α : Type} (le : α → α → Bool) :
    ∀ l : List α, l.Chain' (fun a b => le a b = true) → sortBy le l = l
  | [], _ => rfl
  | [_], _ => rfl
  | x :: y :: ys, h => by
      rw [List.chain'_cons] at h
      have ih := sortBy_of_chain le (y :: ys) h.2
      rw [sortBy, ih]
      simp [insertBy, h.1]

theorem sortChildren_of_chain (df : Bool) (cs : List Entry)
    (h : cs.Chain' (fun a b => keyLe (childKey df a) (childKey df b) = true)) :
    sortChildren df cs = cs := by
  rw [sortChildren]
  have hc : (cs.map (fun c => (childKey df c, c))).Chain'
      (fun a b => keyLe a.1 b.1 = true) := by
    rw [List.chain'_map]
    exact h
  rw [sortBy_of_chain _ _ hc, List.map_map]
  rw [show ((fun x : (Bool × String) × Entry => x.2)
      ∘ fun c : Entry => (childKey df c, c)) = id from rfl, List.map_id]

theorem markLast_append_single :
    ∀ (l : List Entry) (c : Entry),
      markLast (l ++ [c]) = l.map (fun x => (x, false)) ++ [(c, true)]
  | [], c => rfl
  | [x], c => rfl
  | x :: y :: ys, c => by
      have ih := markLast_append_single (y :: ys) c
      show (x, false) :: markLast (y :: ys ++ [c])
          = (x, false) :: ((y :: ys).map (fun x => (x, false)) ++ [(c, true)])
      rw [ih]

theorem heightList_le_one :
    ∀ cs : List Entry, (∀ c ∈ cs, Entry.height c ≤ 1) →
      Entry.heightList cs ≤ 1
  | [], _ => by rw [Entry.heightList]; omega
  | c :: cs, h => by
      rw [Entry.heightList]
      exact max_le (h c (List.mem_cons_self _ _))
        (heightList_le_one cs (fun c' hc' => h c' (List.mem_cons_of_mem _ hc')))

theorem flatMap_pair_file :
    ∀ l : List Nat,
      ((l.map (fun i => Entry.file (bigName i) 5)).map
          (fun x => (x, false))).flatMap
        (fun cb => enumFuel true 1 ([] ++ [cb.1.name]) cb.2 cb.1)
      = l.map (fun i => (⟨[bigName i], 5, true, false⟩ : Event))
  | [] => rfl
  | x :: xs => by
      rw [List.map_cons, List.map_cons, List.flatMap_cons, List.map_cons,
        flatMap_pair_file xs]
      rfl

theorem map_ownSize_files :
    ∀ l : List Nat,
      ((l.map (fun i => (⟨[bigName i], 5, true, false⟩ : Event))).map
        (·.ownSize))
      = List.replicate l.length 5
  | [] => rfl
  | x :: xs => by
      rw [List.map_cons, List.map_cons, map_ownSize_files xs,
        List.length_cons, List.replicate_succ]

theorem chain_desc_replicate (a b : Nat) (hab : b ≤ a) :
    ∀ n : Nat, (List.replicate n a ++ [b]).Chain'
      (fun x y => (decide (y ≤ x) : Bool) = true)
  | 0 => by simp
  | n + 1 => by
      have ih := chain_desc_replicate a b hab n
      rw [List.replicate_succ, List.cons_append, List.chain'_cons']
      refine ⟨?_, ih⟩
      intro y hy
      cases n with
      | zero =>
          simp at hy
          subst hy
          simpa using hab
      | succ m =>
          rw [List.replicate_succ, List.cons_append, List.head?_cons] at hy
          simp at hy
          subst hy
          simp

/-- In a strictly descending list, exactly `k` elements exceed the value at
index `k`. -/
theorem filter_gt_getD_of_sorted (l : List Nat) (k : Nat) (hlen : k < l.length)
    (hsorted : l.Pairwise (fun a b => b ≤ a)) (hnodup : l.Nodup) :
    (l.filter (fun x => decide (l.getD k 0 < x))).length = k := by
  have hstrict : l.Pairwise (fun a b => b < a) :=
    (hsorted.and hnodup).imp
      (fun h => lt_of_le_of_ne h.1 (Ne.symm h.2))
  have hc : l.getD k 0 = l[k] := by
    rw [List.getD_eq_getElem?_getD, List.getElem?_eq_getElem hlen]
    rfl
  have hdk : l.drop k = l[k] :: l.drop (k + 1) := List.drop_eq_getElem_cons hlen
  have hsplit : (l.take k ++ l.drop k).Pairwise (fun a b => b < a) := by
    rw [List.take_append_drop]
    exact hstrict
  rcases List.pairwise_append.mp hsplit with ⟨_, _, hcross⟩
  have hcmem : l[k] ∈ l.drop k := by
    rw [hdk]
    exact List.mem_cons_self _ _
  have htake : (l.take k).filter (fun x => decide (l.getD k 0 < x))
      = l.take k := by
    apply List.filter_eq_self.mpr
    intro x hx
    have hlt := hcross x hx l[k] hcmem
    rw [hc]
    exact decide_eq_true hlt
  have hdropsub : (l.drop k).Pairwise (fun a b => b ≤ a) :=
    hsorted.sublist (List.drop_sublist k l)
  have hdrop : (l.drop k).filter (fun x => decide (l.getD k 0 < x)) = [] := by
    apply List.filter_eq_nil.mpr
    intro x hx
    rw [hdk] at hx
    rcases List.mem_cons.mp hx with rfl | hx2
    · rw [hc]
      simp
    · have hpw2 : (l[k] :: l.drop (k + 1)).Pairwise (fun a b => b ≤ a) := by
        rw [← hdk]
        exact hdropsub
      have hxle : x ≤ l[k] := (List.pairwise_cons.mp hpw2).1 x hx2
      rw [hc]
      simp only [decide_eq_true_eq]
      omega
  calc (l.filter (fun x => decide (l.getD k 0 < x))).length
      = ((l.take k ++ l.drop k).filter
          (fun x => decide (l.getD k 0 < x))).length := by
        rw [List.take_append_drop]
    _ = k := by
        rw [List.filter_append, htake, hdrop, List.length_append]
        simp only [List.length_take, List.length_nil]
        omega

theorem fsBig_children_chain :
    bigChildren.Chain'
      (fun a b => keyLe (childKey true a) (childKey true b) = true) := by
  apply chain_of_chainB
  decide

theorem fsBig_evs :
    enumEntry true [] false fsBig
      = ⟨[], 0, false, false⟩ ::
          ((List.range 1001).map
              (fun i => (⟨[bigName i], 5, true, false⟩ : Event))
            ++ [⟨["zzzz"], 2, true, true⟩]) := by
  have hle : Entry.heightList bigChildren ≤ 1 := by
    apply heightList_le_one
    intro c hc
    have h1 : Entry.height c = 1 := by
      rcases List.mem_append.mp hc with hc | hc
      · rcases List.mem_map.mp hc with ⟨i, _, rfl⟩
        rfl
      · rw [List.mem_singleton] at hc
        subst hc
        rfl
    omega
  have hh : Entry.height fsBig ≤ 2 := by
    have h1 : Entry.height fsBig = 1 + Entry.heightList bigChildren := rfl
    omega
  have h1 : enumEntry true [] false fsBig = enumFuel true 2 [] false fsBig := by
    show enumFuel true fsBig.height [] false fsBig = _
    exact enumFuel_mono true fsBig.height 2 fsBig (le_refl _) hh [] false
  rw [h1]
  have h2 : enumFuel true 2 [] false fsBig
      = ⟨[], 0, false, false⟩ ::
          (markLast (sortChildren true bigChildren)).flatMap
            (fun cb => enumFuel true 1 ([] ++ [cb.1.name]) cb.2 cb.1) := rfl
  rw [h2, sortChildren_of_chain true bigChildren fsBig_children_chain,
    show bigChildren
        = (List.range 1001).map (fun i => Entry.file (bigName i) 5)
          ++ [Entry.file "zzzz" 2] from rfl,
    markLast_append_single, List.flatMap_append, flatMap_pair_file]
  rfl

theorem mkBPS_sizedist (fs : Entry) (incl excl : List RPath)
    (sh fm mdd : Int) (df : Bool) :
    (mkBPS fs incl excl sh fm mdd df).sizedist
      = sortBy (fun a b : Nat => decide (b ≤ a))
          (((enumEntry df [] false fs).filter (·.isFile)).map (·.ownSize)) :=
  rfl

theorem mkBPS_nodes (fs : Entry) (incl excl : List RPath)
    (sh fm mdd : Int) (df : Bool) :
    (mkBPS fs incl excl sh fm mdd df).nodes
      = buildFold incl excl fm [] (enumEntry df [] false fs) := rfl

theorem fsBig_sizedist :
    (mkBPS fsBig [] [] 0 (-1) (-1) true).sizedist
      = List.replicate 1001 5 ++ [2] := by
  rw [mkBPS_sizedist, fsBig_evs]
  have hstep : (((⟨[], 0, false, false⟩ : Event) ::
        ((List.range 1001).map
            (fun i => (⟨[bigName i], 5, true, false⟩ : Event))
          ++ [(⟨["zzzz"], 2, true, true⟩ : Event)])).filter (·.isFile))
      = (((List.range 1001).map
            (fun i => (⟨[bigName i], 5, true, false⟩ : Event))
          ++ [(⟨["zzzz"], 2, true, true⟩ : Event)]).filter (·.isFile)) := rfl
  rw [hstep]
  have htail : (((List.range 1001).map
        (fun i => (⟨[bigName i], 5, true, false⟩ : Event))
        ++ [(⟨["zzzz"], 2, true, true⟩ : Event)]).filter (·.isFile))
      = (List.range 1001).map
          (fun i => (⟨[bigName i], 5, true, false⟩ : Event))
        ++ [(⟨["zzzz"], 2, true, true⟩ : Event)] := by
    apply List.filter_eq_self.mpr
    intro e he
    rcases List.mem_append.mp he with he | he
    · rcases List.mem_map.mp he with ⟨i, _, rfl⟩
      rfl
    · rw [List.mem_singleton] at he
      subst he
      rfl
  rw [htail, List.map_append, map_ownSize_files, List.length_range]
  have hlast : (([⟨["zzzz"], 2, true, true⟩] : List Event).map (·.ownSize))
      = [2] := rfl
  rw [hlast]
  exact sortBy_of_chain _ _ (chain_desc_replicate 5 2 (by omega) 1001)

theorem fsBig_pop :
    (mkBPS fsBig [] [] 0 (-1) (-1) true).sizedist.length > max_display := by
  rw [fsBig_sizedist, List.length_append, List.length_replicate]
  show 1001 + 1 > 1000
  omega

theorem fsBig_cut :
    (mkBPS fsBig [] [] 0 (-1) (-1) true).sizedist.getD (max_display - 1) 0
      = 5 := by
  rw [fsBig_sizedist]
  show (List.replicate 1001 5 ++ [2] : List Nat).getD 999 0 = 5
  decide

theorem fsBig_zz_node :
    lookupSt (mkBPS fsBig [] [] 0 (-1) (-1) true).nodes ["zzzz"]
      = some ⟨2, 1, true, 1, true, true⟩ := by
  have hroot := lookupSt_buildFold_of_created [] [] (-1)
    ([] : List Event)
    ((List.range 1001).map (fun i => (⟨[bigName i], 5, true, false⟩ : Event)))
    ⟨[], 0, false, false⟩
    (show lookupSt ([] : BState) [] = none from rfl)
    (by intro ev hev; exact absurd hev (List.not_mem_nil ev))
    rfl
  rw [List.nil_append] at hroot
  have hl1 : ∀ ev ∈ ((⟨[], 0, false, false⟩ : Event) ::
      (List.range 1001).map (fun i => (⟨[bigName i], 5, true, false⟩ : Event))),
      ev.path ≠ ["zzzz"] := by
    intro ev hev
    rcases List.mem_cons.mp hev with rfl | hev
    · intro hc
      exact List.noConfusion hc
    · rcases List.mem_map.mp hev with ⟨i, _, rfl⟩
      intro hc
      injection hc with hname _
      exact bigName_ne_zzzz i hname
  have hzz := lookupSt_buildFold_of_created [] [] (-1)
    ((⟨[], 0, false, false⟩ : Event) ::
      (List.range 1001).map (fun i => (⟨[bigName i], 5, true, false⟩ : Event)))
    ([] : List Event)
    ⟨["zzzz"], 2, true, true⟩
    (show lookupSt ([] : BState) ["zzzz"] = none from rfl)
    hl1 rfl
  rw [bumpData_nil] at hzz
  have h0 : initData [] [] (-1)
      (buildFold [] [] (-1) []
        ((⟨[], 0, false, false⟩ : Event) ::
          (List.range 1001).map
            (fun i => (⟨[bigName i], 5, true, false⟩ : Event))))
      ⟨["zzzz"], 2, true, true⟩
      = { size := 2, n_files := 1, backup := true,
          depth := ((lookupSt
              (buildFold [] [] (-1) []
                ((⟨[], 0, false, false⟩ : Event) ::
                  (List.range 1001).map
                    (fun i => (⟨[bigName i], 5, true, false⟩ : Event)))) []).map
              (·.depth + 1)).getD 0,
          is_last := true, isFile := true } := rfl
  rw [hroot] at h0
  have hinit := h0.trans
    (show ({ size := 2, n_files := 1, backup := true,
             depth := ((some (bumpData [] [] (-1) []
                 (initData [] [] (-1) (buildFold [] [] (-1) [] [])
                   ⟨[], 0, false, false⟩)
                 ((List.range 1001).map
                   (fun i => (⟨[bigName i], 5, true, false⟩ : Event))))).map
                 (·.depth + 1)).getD 0,
             is_last := true, isFile := true } : NodeData)
      = (⟨2, 1, true, 1, true, true⟩ : NodeData) from rfl)
  rw [hinit] at hzz
  have hnodes : (mkBPS fsBig [] [] 0 (-1) (-1) true).nodes
      = buildFold [] [] (-1) []
          ((((⟨[], 0, false, false⟩ : Event) ::
              (List.range 1001).map
                (fun i => (⟨[bigName i], 5, true, false⟩ : Event))))
            ++ (⟨["zzzz"], 2, true, true⟩ : Event) :: []) := by
    rw [mkBPS_nodes, fsBig_evs, List.cons_append]
  rw [hnodes]
  exact hzz

/-- Claim C7 (amended): with more file leaves than the display cap, a
non-explicit node within display depth is hidden by a displaying scan exactly
when its size is at most the `(max_display+1)`-th largest file size
(`sizedist[max_display]`, index `max_display` 0-based); with distinct sizes
exactly `max_display` of the collected sizes exceed that cutoff; and the run
that writes the configuration records (`make_backup_conf`, which scans with
`display=False`) never applies the cap — its output does not depend on the
size distribution at all. -/
theorem C7_display_cap (s : BPS) (p : RPath) (d : NodeData)
    (hexp : explicitIn s p = false)
    (hdepth : (decide ((d.depth : Int) > s.max_depth_display)
        && decide (s.max_depth_display > -1)) = false)
    (hpop : s.sizedist.length > max_display)
    (hsorted : s.sizedist.Pairwise (fun a b => b ≤ a))
    (hnodup : s.sizedist.Nodup) :
    (scanSkip s true d = true ↔ d.size ≤ s.sizedist.getD max_display 0)
      ∧ (s.sizedist.filter
          (fun x => decide (s.sizedist.getD max_display 0 < x))).length
          = max_display
      ∧ ∀ sd : List Nat,
          make_backup_conf { s with sizedist := sd }
            = make_backup_conf s := by
  refine ⟨?_, ?_, ?_⟩
  · rw [scanSkip, hdepth, decide_eq_true hpop]
    simp
  · exact filter_gt_getD_of_sorted s.sizedist max_display hpop hsorted hnodup
  · intro sd
    show s.nodes.filterMap
        (fun x => if scanKeep { s with sizedist := sd } false x.1 x.2
          then some (x.1, x.2.backup) else none)
      = s.nodes.filterMap
        (fun x => if scanKeep s false x.1 x.2
          then some (x.1, x.2.backup) else none)
    congr 1

/-- Witness for the amended C7 at a structure state with 1002 distinct
descending sizes and a minimal node record. -/
theorem C7_display_cap_witness :
    (explicitIn c7W [] = false
      ∧ (decide ((c7D.depth : Int) > c7W.max_depth_display)
          && decide (c7W.max_depth_display > -1)) = false
      ∧ c7W.sizedist.length > max_display
      ∧ c7W.sizedist.Pairwise (fun a b => b ≤ a)
      ∧ c7W.sizedist.Nodup)
    ∧ ((scanSkip c7W true c7D = true
          ↔ c7D.size ≤ c7W.sizedist.getD max_display 0)
        ∧ (c7W.sizedist.filter
            (fun x => decide (c7W.sizedist.getD max_display 0 < x))).length
            = max_display
        ∧ ∀ sd : List Nat,
            make_backup_conf { c7W with sizedist := sd }
              = make_backup_conf c7W) := by
  have h1 : explicitIn c7W [] = false := by decide
  have h2 : (decide ((c7D.depth : Int) > c7W.max_depth_display)
      && decide (c7W.max_depth_display > -1)) = false := by decide
  have h3 : c7W.sizedist.length > max_display := by
    show (List.range 1002).reverse.length > 1000
    rw [List.length_reverse, List.length_range]
    omega
  have h4 : c7W.sizedist.Pairwise (fun a b => b ≤ a) := by
    show ((List.range 1002).reverse).Pairwise (fun a b => b ≤ a)
    exact List.pairwise_reverse.mpr
      ((List.pairwise_lt_range 1002).imp Nat.le_of_lt)
  have h5 : c7W.sizedist.Nodup := by
    show ((List.range 1002).reverse).Nodup
    exact List.nodup_reverse.mpr (List.nodup_range 1002)
  exact ⟨⟨h1, h2, h3, h4, h5⟩, C7_display_cap c7W [] c7D h1 h2 h3 h4 h5⟩

/-- Counterexample to C7 as stated: on a root with 1002 file leaves (1001 of
size 5, one 2-byte file `zzzz`), the non-displaying scan that writes the
configuration records skips nothing, yet the 2-byte file is smaller than the
cap-th largest size — the spec's cap rule does not hold on that run. -/
theorem C7_counterexample :
    ¬ c7SpecClaim (mkBPS fsBig [] [] 0 (-1) (-1) true) := by
  intro h
  have hmem : (["zzzz"], (⟨2, 1, true, 1, true, true⟩ : NodeData))
      ∈ (mkBPS fsBig [] [] 0 (-1) (-1) true).nodes :=
    mem_of_lookupSt fsBig_zz_node
  have h' := h false ["zzzz"] ⟨2, 1, true, 1, true, true⟩ hmem
    (by decide) (by decide) fsBig_pop
  have hlt : (⟨2, 1, true, 1, true, true⟩ : NodeData).size
      < (mkBPS fsBig [] [] 0 (-1) (-1) true).sizedist.getD
          (max_display - 1) 0 := by
    rw [fsBig_cut]
    decide
  have hskip := h'.mpr hlt
  have hfalse : scanSkip (mkBPS fsBig [] [] 0 (-1) (-1) true) false
      (⟨2, 1, true, 1, true, true⟩ : NodeData) = false := by decide
  rw [hfalse] at hskip
  exact Bool.noConfusion hskip

end Backupy

